import Mathlib

/-!
Shallow embedding of the scalar BVH engine (binned-SAH variant and PLOC
variant) together with its ray traversal, and proofs about it.

Floating-point values are modelled by `FP`: exact rationals together with
NaN and the two infinities.  Arithmetic on finite values is exact except
that any result whose magnitude exceeds the largest finite single-precision
value saturates to the corresponding infinity, and the IEEE special rules
for NaN and infinities are kept.  Comparisons mirror IEEE semantics: every
comparison involving NaN is false.
-/

set_option maxRecDepth 4000

/-- Unnormalized rational number with a positive denominator: the
kernel-computable carrier of finite float values. -/
structure Q where
  num : Int
  den : Int
  dpos : 0 < den

instance : DecidableEq Q := fun a b =>
  decidable_of_iff (a.num = b.num ∧ a.den = b.den) (by
    cases a; cases b; simp)

instance : Repr Q := ⟨fun q _ => repr (q.num, q.den)⟩

/-- Integer as a `Q` value. -/
def qInt (n : Int) : Q := ⟨n, 1, one_pos⟩

/-- Value-level strict order on `Q`, by cross multiplication. -/
def qLt (a b : Q) : Bool := decide (a.num * b.den < b.num * a.den)

/-- Value-level order on `Q`, by cross multiplication. -/
def qLe (a b : Q) : Bool := decide (a.num * b.den ≤ b.num * a.den)

/-- Value-level equality on `Q`, by cross multiplication. -/
def qEqv (a b : Q) : Bool := decide (a.num * b.den = b.num * a.den)

/-- Addition on `Q`. -/
def qAdd (a b : Q) : Q :=
  ⟨a.num * b.den + b.num * a.den, a.den * b.den, mul_pos a.dpos b.dpos⟩

/-- Negation on `Q`. -/
def qNeg (a : Q) : Q := ⟨-a.num, a.den, a.dpos⟩

/-- Multiplication on `Q`. -/
def qMul (a b : Q) : Q := ⟨a.num * b.num, a.den * b.den, mul_pos a.dpos b.dpos⟩

/-- Division on `Q`; only invoked on nonzero divisors, and total anyway. -/
def qDiv (a b : Q) : Q :=
  if h : 0 < b.num then ⟨a.num * b.den, a.den * b.num, mul_pos a.dpos h⟩
  else if h2 : b.num < 0 then
    ⟨-(a.num * b.den), a.den * (-b.num), mul_pos a.dpos (by omega)⟩
  else qInt 0

/-- Absolute value on `Q`. -/
def qAbs (a : Q) : Q := ⟨|a.num|, a.den, a.dpos⟩

/-- Largest finite value of an IEEE-754 single-precision float
(`std::numeric_limits<float>::max()`), i.e. `(2^24 - 1) * 2^104`. -/
def fltMax : Q := qInt (340282346638528859811704183484516925440)

/-- Machine epsilon of an IEEE-754 single-precision float
(`std::numeric_limits<float>::epsilon()`), i.e. `2^-23`. -/
def fltEps : Q := ⟨1, 8388608, by omega⟩

/-- Model of a single-precision float: NaN, the infinities, or an exact
finite rational value. -/
inductive FP where
  | nan : FP
  | inf : FP
  | ninf : FP
  | fin : Q → FP
deriving DecidableEq, Repr

/-- Saturation: an exact result of magnitude above `fltMax` overflows to the
infinity of its sign, as IEEE single-precision arithmetic does. -/
def saturate (q : Q) : FP :=
  if qLt fltMax q then .inf else if qLt q (qNeg fltMax) then .ninf else .fin q

/-- IEEE `<`: false whenever one operand is NaN. -/
def fpLt : FP → FP → Bool
  | .nan, _ => false
  | _, .nan => false
  | .inf, _ => false
  | _, .inf => true
  | .ninf, .ninf => false
  | .ninf, _ => true
  | _, .ninf => false
  | .fin a, .fin b => qLt a b

/-- IEEE `<=`: false whenever one operand is NaN. -/
def fpLe : FP → FP → Bool
  | .nan, _ => false
  | _, .nan => false
  | .inf, .inf => true
  | .inf, _ => false
  | _, .inf => true
  | .ninf, _ => true
  | _, .ninf => false
  | .fin a, .fin b => qLe a b

/-- IEEE negation. -/
def fpNeg : FP → FP
  | .nan => .nan
  | .inf => .ninf
  | .ninf => .inf
  | .fin a => .fin (qNeg a)

/-- IEEE addition (exact on finite values, saturating at `fltMax`). -/
def fpAdd : FP → FP → FP
  | .nan, _ => .nan
  | _, .nan => .nan
  | .inf, .ninf => .nan
  | .ninf, .inf => .nan
  | .inf, _ => .inf
  | _, .inf => .inf
  | .ninf, _ => .ninf
  | _, .ninf => .ninf
  | .fin a, .fin b => saturate (qAdd a b)

/-- IEEE subtraction. -/
def fpSub (a b : FP) : FP := fpAdd a (fpNeg b)

/-- IEEE multiplication (exact on finite values, saturating at `fltMax`). -/
def fpMul : FP → FP → FP
  | .nan, _ => .nan
  | _, .nan => .nan
  | .inf, .inf => .inf
  | .inf, .ninf => .ninf
  | .ninf, .inf => .ninf
  | .ninf, .ninf => .inf
  | .inf, .fin q => if q.num = 0 then .nan else if 0 < q.num then .inf else .ninf
  | .fin q, .inf => if q.num = 0 then .nan else if 0 < q.num then .inf else .ninf
  | .ninf, .fin q => if q.num = 0 then .nan else if 0 < q.num then .ninf else .inf
  | .fin q, .ninf => if q.num = 0 then .nan else if 0 < q.num then .ninf else .inf
  | .fin a, .fin b => saturate (qMul a b)

/-- IEEE division (exact on finite values, saturating at `fltMax`; the model
has no negative zero, so division of a positive value by zero gives `inf`). -/
def fpDiv : FP → FP → FP
  | .nan, _ => .nan
  | _, .nan => .nan
  | .inf, .inf => .nan
  | .inf, .ninf => .nan
  | .ninf, .inf => .nan
  | .ninf, .ninf => .nan
  | .inf, .fin q => if 0 ≤ q.num then .inf else .ninf
  | .ninf, .fin q => if 0 ≤ q.num then .ninf else .inf
  | .fin _, .inf => .fin (qInt 0)
  | .fin _, .ninf => .fin (qInt 0)
  | .fin a, .fin b =>
    if b.num = 0 then (if a.num = 0 then .nan else if 0 < a.num then .inf else .ninf)
    else saturate (qDiv a b)

/-- `std::fabs`. -/
def fpAbs : FP → FP
  | .nan => .nan
  | .inf => .inf
  | .ninf => .inf
  | .fin a => .fin (qAbs a)

/-- Sign test used by `std::copysign` (the model has no negative zero, so
zero and NaN count as positive). -/
def fpIsNeg : FP → Bool
  | .ninf => true
  | .fin a => decide (a.num < 0)
  | _ => false

/-- `std::copysign`. -/
def fpCopysign (mag sgn : FP) : FP :=
  if fpIsNeg sgn then
    match fpAbs mag with
    | .nan => .nan
    | .inf => .ninf
    | .ninf => .ninf
    | .fin a => .fin (qNeg a)
  else fpAbs mag

/-- Conversion of a nonnegative natural number to the float model. -/
def natToFP (n : Nat) : FP := saturate (qInt n)

/-- Truncation of a `Q` value toward zero, the C++ float-to-integer
conversion on in-range values. -/
def truncQ (q : Q) : Int := Int.tdiv q.num q.den

/-- C++ `static_cast<int>` from float.  Out-of-range values and NaN are
undefined behaviour in C++; the model picks the values produced by x86
hardware (NaN and out-of-range saturate to `INT_MIN`/`INT_MAX`).  All
theorems about `bin_index` below hold for every possible result of this
conversion. -/
def fpToInt : FP → Int
  | .nan => -(2 ^ 31)
  | .inf => 2 ^ 31 - 1
  | .ninf => -(2 ^ 31)
  | .fin q =>
    if qLt fltMax q then 2 ^ 31 - 1
    else if qLt q (qNeg fltMax) then -(2 ^ 31)
    else
      let t := truncQ q
      if t < -(2 ^ 31) then -(2 ^ 31) else if 2 ^ 31 - 1 < t then 2 ^ 31 - 1 else t

/-- C++ `static_cast<std::uint32_t>` from float (used on values already
clamped to the Morton grid, which are nonnegative and small). -/
def fpToNat : FP → Nat
  | .fin q => if q.num < 0 then 0 else (truncQ q).toNat
  | _ => 0

/-- `std::min` on floats: `b < a ? b : a`. -/
def stdMin (a b : FP) : FP := if fpLt b a then b else a

/-- `std::max` on floats: `a < b ? b : a`. -/
def stdMax (a b : FP) : FP := if fpLt a b then b else a

/-- `robust_min(a, b) { return a < b ? a : b; }` (part_000 line 116,
bvh_ploc.cpp line 120). -/
def robust_min (a b : FP) : FP := if fpLt a b then a else b

/-- `robust_max(a, b) { return a > b ? a : b; }` (part_000 line 117,
bvh_ploc.cpp line 121). -/
def robust_max (a b : FP) : FP := if fpLt b a then a else b

/-- `safe_inverse` (part_000 lines 118-122). -/
def safe_inverse (x : FP) : FP :=
  if fpLe (fpAbs x) (.fin fltEps)
  then fpCopysign (fpDiv (.fin (qInt 1)) (.fin fltEps)) x
  else fpDiv (.fin (qInt 1)) x

/-- Three-component vector of model floats. -/
structure Vec3 where
  x : FP
  y : FP
  z : FP
deriving DecidableEq, Repr

/-- `Vec3(x)` — the splat constructor. -/
def Vec3.splat (v : FP) : Vec3 := ⟨v, v, v⟩

/-- `operator []` on `Vec3`, with a `Nat` axis index. -/
def Vec3.nth (v : Vec3) : Nat → FP
  | 0 => v.x
  | 1 => v.y
  | _ => v.z

/-- Componentwise `operator +`. -/
def vadd (a b : Vec3) : Vec3 := ⟨fpAdd a.x b.x, fpAdd a.y b.y, fpAdd a.z b.z⟩

/-- Componentwise `operator -`. -/
def vsub (a b : Vec3) : Vec3 := ⟨fpSub a.x b.x, fpSub a.y b.y, fpSub a.z b.z⟩

/-- Componentwise `operator *`. -/
def vmul (a b : Vec3) : Vec3 := ⟨fpMul a.x b.x, fpMul a.y b.y, fpMul a.z b.z⟩

/-- Componentwise `operator /` (bvh_ploc.cpp lines 44-46). -/
def vdiv (a b : Vec3) : Vec3 := ⟨fpDiv a.x b.x, fpDiv a.y b.y, fpDiv a.z b.z⟩

/-- Lane-wise `min` on `Vec3`. -/
def vmin (a b : Vec3) : Vec3 := ⟨stdMin a.x b.x, stdMin a.y b.y, stdMin a.z b.z⟩

/-- Lane-wise `max` on `Vec3`. -/
def vmax (a b : Vec3) : Vec3 := ⟨stdMax a.x b.x, stdMax a.y b.y, stdMax a.z b.z⟩

/-- `dot`. -/
def dot (a b : Vec3) : FP :=
  fpAdd (fpAdd (fpMul a.x b.x) (fpMul a.y b.y)) (fpMul a.z b.z)

/-- `cross`. -/
def cross (a b : Vec3) : Vec3 :=
  ⟨fpSub (fpMul a.y b.z) (fpMul a.z b.y),
   fpSub (fpMul a.z b.x) (fpMul a.x b.z),
   fpSub (fpMul a.x b.y) (fpMul a.y b.x)⟩

/-- Axis-aligned bounding box. -/
structure BBox where
  min : Vec3
  max : Vec3
deriving DecidableEq, Repr

/-- `BBox(point)` — the degenerate box of a single point. -/
def BBox.point (p : Vec3) : BBox := ⟨p, p⟩

/-- `BBox::extend(const BBox&)` (part_000 lines 86-90). -/
def BBox.extend (b other : BBox) : BBox :=
  ⟨vmin b.min other.min, vmax b.max other.max⟩

/-- `BBox::diagonal()`. -/
def BBox.diagonal (b : BBox) : Vec3 := vsub b.max b.min

/-- `BBox::largest_axis()` (part_000 lines 96-102). -/
def BBox.largest_axis (b : BBox) : Nat :=
  let d := b.diagonal
  let axis0 : Nat := 0
  let axis1 : Nat := if fpLt (d.nth axis0) d.y then 1 else axis0
  if fpLt (d.nth axis1) d.z then 2 else axis1

/-- `BBox::half_area()` (part_000 lines 104-107). -/
def BBox.half_area (b : BBox) : FP :=
  let d := b.diagonal
  fpAdd (fpMul (fpAdd d.x d.y) d.z) (fpMul d.x d.y)

/-- `BBox::empty()` of the binned-SAH source (part_000 lines 109-113):
`min = Vec3(-FLT_MAX)`, `max = Vec3(+FLT_MAX)` — note the swapped
components. -/
def emptyBoxSah : BBox := ⟨Vec3.splat (.fin (qNeg fltMax)), Vec3.splat (.fin fltMax)⟩

/-- `BBox::empty()` of the PLOC source (bvh_ploc.cpp lines 113-117):
`min = Vec3(+FLT_MAX)`, `max = Vec3(-FLT_MAX)`. -/
def emptyBoxPloc : BBox := ⟨Vec3.splat (.fin fltMax), Vec3.splat (.fin (qNeg fltMax))⟩

/-- Ray with origin, direction and active `t` interval. -/
structure Ray where
  org : Vec3
  dir : Vec3
  tmin : FP
  tmax : FP
deriving DecidableEq, Repr

/-- `Ray::inv_dir()`. -/
def Ray.inv_dir (r : Ray) : Vec3 :=
  ⟨safe_inverse r.dir.x, safe_inverse r.dir.y, safe_inverse r.dir.z⟩

/-- The no-hit sentinel `Hit::none()`: `uint32_t(-1)`. -/
def hitNone : Nat := 2 ^ 32 - 1

/-- BVH node: bounding box, primitive count (zero iff internal) and first
index (into `prim_indices` for a leaf, of the left child for an internal
node). -/
structure Node where
  bbox : BBox
  prim_count : Nat
  first_index : Nat
deriving DecidableEq, Repr

-- `prim_count` and `first_index` are `uint32_t` in the source; they are
-- modelled as `Nat`, and every assignment of a `size_t` expression into
-- them narrows with `u32`/`usub32` (defined below) to the low 32 bits.

/-- Value-initialised `Node` (the entries of a freshly resized
`std::vector<Node>`; their contents are overwritten before being read). -/
def defaultNode : Node := ⟨⟨Vec3.splat (.fin (qInt 0)), Vec3.splat (.fin (qInt 0))⟩, 0, 0⟩

/-- `Node::is_leaf()`. -/
def Node.is_leaf (n : Node) : Bool := n.prim_count ≠ 0

/-- `Node::intersect` — the slab test (part_000 lines 158-166).  Returns the
`Intersection{tmin, tmax}` pair. -/
def Node.intersect (n : Node) (ray : Ray) : FP × FP :=
  let inv_dir := ray.inv_dir
  let tmin := vmul (vsub n.bbox.min ray.org) inv_dir
  let tmax := vmul (vsub n.bbox.max ray.org) inv_dir
  let tmin2 := vmin tmin tmax
  let tmax2 := vmax tmin tmax
  (robust_max tmin2.x (robust_max tmin2.y (robust_max tmin2.z ray.tmin)),
   robust_min tmax2.x (robust_min tmax2.y (robust_min tmax2.z ray.tmax)))

/-- `Intersection::operator bool()`: hit iff `tmin <= tmax`. -/
def nodeHit (n : Node) (ray : Ray) : Bool :=
  fpLe (n.intersect ray).1 (n.intersect ray).2

/-- Triangle primitive. -/
structure Triangle where
  p0 : Vec3
  p1 : Vec3
  p2 : Vec3
deriving DecidableEq, Repr

/-- The barycentric coordinate `u` computed by `Triangle::intersect`
(part_000 lines 345-355).  It depends only on the triangle, the ray origin
and the ray direction. -/
def mtU (t : Triangle) (org dir : Vec3) : FP :=
  let e1 := vsub t.p0 t.p1
  let e2 := vsub t.p2 t.p0
  let n := cross e1 e2
  let c := vsub t.p0 org
  let r := cross dir c
  let inv_det := fpDiv (.fin (qInt 1)) (dot n dir)
  fpMul (dot r e2) inv_det

/-- The barycentric coordinate `v` computed by `Triangle::intersect`. -/
def mtV (t : Triangle) (org dir : Vec3) : FP :=
  let e1 := vsub t.p0 t.p1
  let e2 := vsub t.p2 t.p0
  let n := cross e1 e2
  let c := vsub t.p0 org
  let r := cross dir c
  let inv_det := fpDiv (.fin (qInt 1)) (dot n dir)
  fpMul (dot r e1) inv_det

/-- The barycentric coordinate `w = 1 - u - v` computed by
`Triangle::intersect`. -/
def mtW (t : Triangle) (org dir : Vec3) : FP :=
  fpSub (fpSub (.fin (qInt 1)) (mtU t org dir)) (mtV t org dir)

/-- The hit distance `t = dot(n, c) * inv_det` computed by
`Triangle::intersect`.  It depends only on the triangle, the ray origin and
the ray direction — not on the ray's `t` interval. -/
def mtT (t : Triangle) (org dir : Vec3) : FP :=
  let e1 := vsub t.p0 t.p1
  let e2 := vsub t.p2 t.p0
  let n := cross e1 e2
  let c := vsub t.p0 org
  let inv_det := fpDiv (.fin (qInt 1)) (dot n dir)
  fpMul (dot n c) inv_det

/-- `Triangle::intersect` (part_000 lines 345-369).  Returns the success
flag and the (possibly updated) ray: on success `ray.tmax` is set to `t`,
otherwise the ray is returned unchanged. -/
def Triangle.intersect (tri : Triangle) (ray : Ray) : Bool × Ray :=
  let u := mtU tri ray.org ray.dir
  let v := mtV tri ray.org ray.dir
  let w := mtW tri ray.org ray.dir
  if fpLe (.fin (qInt 0)) u && fpLe (.fin (qInt 0)) v && fpLe (.fin (qInt 0)) w then
    let t := mtT tri ray.org ray.dir
    if fpLe ray.tmin t && fpLe t ray.tmax then
      (true, { ray with tmax := t })
    else (false, ray)
  else (false, ray)

/-- Result of running a piece of the embedded program: success, a runtime
failure (a failed assertion, an out-of-bounds vector access, or an
allocation failure), or exhaustion of the step budget. -/
inductive Res (α : Type) where
  | ok : α → Res α
  | err : Res α
  | fuelOut : Res α
deriving DecidableEq, Repr

/-- Sequencing of embedded computations. -/
def Res.bind {α β : Type} : Res α → (α → Res β) → Res β
  | .ok a, f => f a
  | .err, _ => .err
  | .fuelOut, _ => .fuelOut

instance : Monad Res where
  pure := Res.ok
  bind := Res.bind

/-- A fallible read (`std::vector::operator[]`, whose out-of-bounds use is
undefined behaviour) becomes a runtime failure. -/
def toRes {α : Type} : Option α → Res α
  | some a => .ok a
  | none => .err

/-- Checked in-place update of a vector element. -/
def lset? {α : Type} (l : List α) (i : Nat) (v : α) : Option (List α) :=
  if i < l.length then some (l.set i v) else none

/-- A C++ `assert`. -/
def assertR (b : Bool) : Res Unit := if b then .ok () else .err

/-- `std::vector<Node>::max_size()` order of magnitude; `resize` beyond it
throws. -/
def maxAlloc : Nat := 2 ^ 58

/-- `std::vector<Node>::resize` on an empty vector. -/
def vresize (len : Nat) : Res (List Node) :=
  if len ≤ maxAlloc then .ok (List.replicate len defaultNode) else .err

/-- `size_t` subtraction: wraps modulo `2^64`. -/
def sizeSub (a b : Nat) : Nat := (a % 2 ^ 64 + (2 ^ 64 - b % 2 ^ 64)) % 2 ^ 64

/-- Narrowing a `size_t` value into a `uint32_t` field (`Node::prim_count`
and `Node::first_index` are `uint32_t`, and the builders assign `size_t`
expressions into them): keeps the low 32 bits. -/
def u32 (a : Nat) : Nat := a % 2 ^ 32

/-- `uint32_t` subtraction (`a - b` on two 32-bit unsigned operands): wraps
modulo `2^32`. -/
def usub32 (a b : Nat) : Nat := (a % 2 ^ 32 + (2 ^ 32 - b % 2 ^ 32)) % 2 ^ 32

/-- The BVH: a contiguous node array and a permutation of primitive
indices. -/
structure Bvh where
  nodes : List Node
  prim_indices : List Nat
deriving DecidableEq, Repr

/-- `BuildConfig::min_prims` (part_000 line 192). -/
def min_prims : Nat := 2

/-- `BuildConfig::max_prims` (part_000 line 192). -/
def max_prims : Nat := 8

/-- `bin_count` (part_000 line 207). -/
def binCount : Nat := 16

/-- Builder state: the node array being filled, the primitive-index
permutation, and the node allocation counter. -/
structure BuildSt where
  nodes : List Node
  prim_indices : List Nat
  node_count : Nat
deriving DecidableEq, Repr

/-- SAH bin. -/
structure Bin where
  bbox : BBox
  prim_count : Nat
deriving DecidableEq, Repr

/-- Default-constructed `Bin`: empty box (SAH variant) and zero count. -/
def defaultBin : Bin := ⟨emptyBoxSah, 0⟩

/-- `Bin::extend`. -/
def Bin.extend (b other : Bin) : Bin :=
  ⟨b.bbox.extend other.bbox, b.prim_count + other.prim_count⟩

/-- `Bin::cost()`: `bbox.half_area() * prim_count`. -/
def Bin.cost (b : Bin) : FP := fpMul b.bbox.half_area (natToFP b.prim_count)

/-- The clamp applied by `bin_index` to the converted integer:
`std::min(bin_count - 1, static_cast<size_t>(std::max(0, index)))`. -/
def clampBin (index : Int) : Nat :=
  Nat.min (binCount - 1) (Int.toNat (max 0 index))

/-- `bin_index` (part_000 lines 209-212). -/
def bin_index (axis : Nat) (bbox : BBox) (center : Vec3) : Nat :=
  clampBin (fpToInt (fpMul (fpSub (center.nth axis) (bbox.min.nth axis))
    (fpDiv (natToFP binCount) (fpSub (bbox.max.nth axis) (bbox.min.nth axis)))))

/-- SAH split candidate. -/
structure Split where
  axis : Nat
  cost : FP
  right_bin : Nat
deriving DecidableEq, Repr

/-- Default-constructed `Split` for a given axis: cost `FLT_MAX`, right bin
`0` (the "no valid split" sentinel). -/
def defaultSplit (axis : Nat) : Split := ⟨axis, .fin fltMax, 0⟩

/-- `Split::operator<`: `*this && cost < other.cost`. -/
def splitLt (a b : Split) : Bool := a.right_bin ≠ 0 && fpLt a.cost b.cost

/-- `std::min` on `Split` values: `(b < a) ? b : a`. -/
def stdMinSplit (a b : Split) : Split := if splitLt b a then b else a

/-- The binning loop of `find_best_split` (part_000 lines 233-238).  Note
that it reads `prim_indices[i]` for `i < prim_count`, not
`prim_indices[first_index + i]`. -/
def accumBins (axis : Nat) (bb : List BBox) (cc : List Vec3)
    (pis : List Nat) (node : Node) : Nat → Nat → List Bin → Res (List Bin)
  | 0, _, bins => .ok bins
  | k+1, i, bins => do
    let p ← toRes pis[i]?
    let center ← toRes cc[p]?
    let bx ← toRes bb[p]?
    let idx := bin_index axis node.bbox center
    let bin ← toRes bins[idx]?
    let bins2 ← toRes (lset? bins idx
      { bin with bbox := bin.bbox.extend bx, prim_count := bin.prim_count + 1 })
    accumBins axis bb cc pis node k (i+1) bins2

/-- The right-to-left cost sweep of `find_best_split` (part_000 lines
239-244); processes bins `i, i-1, ..., 1`. -/
def sweepRight (bins : List Bin) : Nat → Bin → List FP → Res (List FP)
  | 0, _, rc => .ok rc
  | i+1, accum, rc => do
    let b ← toRes bins[i+1]?
    let accum2 := accum.extend b
    let rc2 ← toRes (lset? rc (i+1) accum2.cost)
    sweepRight bins i accum2 rc2

/-- The left-to-right sweep of `find_best_split` (part_000 lines 245-253);
`k` counts the remaining iterations, `i` is the current bin. -/
def sweepLeft (bins : List Bin) (rc : List FP) : Nat → Nat → Bin → Split → Res Split
  | 0, _, _, split => .ok split
  | k+1, i, accum, split => do
    let b ← toRes bins[i]?
    let accum2 := accum.extend b
    let rcost ← toRes rc[i+1]?
    let cost := fpAdd accum2.cost rcost
    let split2 := if fpLt cost split.cost
      then { split with cost := cost, right_bin := i + 1 } else split
    sweepLeft bins rc k (i+1) accum2 split2

/-- `find_best_split` (part_000 lines 225-255). -/
def find_best_split (axis : Nat) (st : BuildSt) (node : Node)
    (bb : List BBox) (cc : List Vec3) : Res Split := do
  let bins ← accumBins axis bb cc st.prim_indices node node.prim_count 0
    (List.replicate binCount defaultBin)
  let rc ← sweepRight bins (binCount - 1) defaultBin (List.replicate binCount (.fin (qInt 0)))
  sweepLeft bins rc (binCount - 1) 0 defaultBin (defaultSplit axis)

/-- The comparator of the median-split `std::sort`:
`centers[i][axis] < centers[j][axis]`. -/
def cmpC (cc : List Vec3) (axis i j : Nat) : Bool :=
  fpLt ((cc.getD i (Vec3.splat (.fin (qInt 0)))).nth axis) ((cc.getD j (Vec3.splat (.fin (qInt 0)))).nth axis)

/-- The comparator as a decidable relation. -/
def cmpCP (cc : List Vec3) (axis : Nat) (i j : Nat) : Prop := cmpC cc axis i j = true

instance (cc : List Vec3) (axis : Nat) : DecidableRel (cmpCP cc axis) := fun _ _ => by
  unfold cmpCP; infer_instance

/-- The median-split `std::sort` over the node's subrange of
`prim_indices` (part_000 lines 284-287), modelled by an insertion sort. -/
def sortRange (cc : List Vec3) (axis : Nat) (l : List Nat) (first count : Nat) :
    Res (List Nat) :=
  if first + count ≤ l.length then
    .ok (l.take first ++ List.insertionSort (cmpCP cc axis) ((l.drop first).take count)
      ++ l.drop (first + count))
  else .err

/-- The `std::partition` predicate of the SAH split (part_000 line 297). -/
def partPred (minSplit : Split) (node : Node) (cc : List Vec3) (i : Nat) : Bool :=
  bin_index minSplit.axis node.bbox (cc.getD i (Vec3.splat (.fin (qInt 0)))) < minSplit.right_bin

/-- `std::partition` over the node's subrange of `prim_indices` (part_000
lines 294-298); returns the new list and `first_right`. -/
def partitionRange (p : Nat → Bool) (l : List Nat) (first count : Nat) :
    Res (List Nat × Nat) :=
  if first + count ≤ l.length then
    let mid := (l.drop first).take count
    .ok (l.take first ++ mid.filter p ++ mid.filter (fun x => !(p x))
      ++ l.drop (first + count),
      first + (mid.filter p).length)
  else .err

/-- The node-box loop of `build_recursive` (part_000 lines 267-269): extend
from `BBox::empty()` over `bboxes[prim_indices[i]]` for `i < prim_count`
(again starting at index `0`, not at `first_index`). -/
def extendPrims (bb : List BBox) (pis : List Nat) : Nat → Nat → BBox → Res BBox
  | 0, _, acc => .ok acc
  | k+1, i, acc => do
    let p ← toRes pis[i]?
    let bx ← toRes bb[p]?
    extendPrims bb pis k (i+1) (acc.extend bx)

/-- The split decision of `build_recursive` (part_000 lines 274-299):
returns `none` to terminate with a leaf, or the updated permutation and
`first_right`. -/
def sahDecide (bb : List BBox) (cc : List Vec3) (st1 : BuildSt) (node1 : Node) :
    Res (Option (List Nat × Nat)) := do
  let s0 ← find_best_split 0 st1 node1 bb cc
  let s1 ← find_best_split 1 st1 node1 bb cc
  let s2 ← find_best_split 2 st1 node1 bb cc
  let min_split := stdMinSplit (stdMinSplit (stdMinSplit (defaultSplit 0) s0) s1) s2
  let leaf_cost := fpMul node1.bbox.half_area (fpSub (natToFP node1.prim_count) (.fin (qInt 1)))
  if min_split.right_bin = 0 || fpLt leaf_cost min_split.cost then
    if max_prims < node1.prim_count then do
      let axis := node1.bbox.largest_axis
      let pis1 ← sortRange cc axis st1.prim_indices node1.first_index node1.prim_count
      pure (some (pis1, node1.first_index + node1.prim_count / 2))
    else pure none
  else do
    let pr ← partitionRange (partPred
      (stdMinSplit (stdMinSplit (stdMinSplit (defaultSplit 0) s0) s1) s2) node1 cc)
      st1.prim_indices node1.first_index node1.prim_count
    pure (some pr)

/-- `build_recursive` (part_000 lines 257-316), with an explicit fuel
budget driving the recursion. -/
def build_recursive (bb : List BBox) (cc : List Vec3) :
    Nat → Nat → BuildSt → Res BuildSt
  | 0, _, _ => .fuelOut
  | fuel+1, node_index, st => do
    let node0 ← toRes st.nodes[node_index]?
    let _ ← assertR node0.is_leaf
    let bbox1 ← extendPrims bb st.prim_indices node0.prim_count 0 emptyBoxSah
    let node1 := { node0 with bbox := bbox1 }
    let nodes1 ← toRes (lset? st.nodes node_index node1)
    let st1 : BuildSt := { st with nodes := nodes1 }
    if node1.prim_count < min_prims then pure st1 else do
    let dec ← sahDecide bb cc st1 node1
    match dec with
    | none => pure st1
    | some (pis1, first_right) => do
      let st2 : BuildSt := { st1 with prim_indices := pis1 }
      let first_child := st2.node_count
      let left0 ← toRes st2.nodes[first_child]?
      let right0 ← toRes st2.nodes[first_child + 1]?
      let left1 := Node.mk left0.bbox
        (u32 (sizeSub first_right node1.first_index)) node1.first_index
      let right1 := Node.mk right0.bbox
        (usub32 node1.prim_count (u32 (sizeSub first_right node1.first_index)))
        (u32 first_right)
      let nodes2 ← toRes (lset? st2.nodes first_child left1)
      let nodes3 ← toRes (lset? nodes2 (first_child + 1) right1)
      let node2 := { node1 with first_index := u32 first_child, prim_count := 0 }
      let nodes4 ← toRes (lset? nodes3 node_index node2)
      let st3 : BuildSt := { st2 with nodes := nodes4, node_count := st2.node_count + 2 }
      let st4 ← build_recursive bb cc fuel first_child st3
      build_recursive bb cc fuel (first_child + 1) st4

/-- `Bvh::build` of the binned-SAH source (part_000 lines 318-332). -/
def sahBuild (bb : List BBox) (cc : List Vec3) (prim_count : Nat) : Res Bvh := do
  let prim_indices := List.range prim_count
  let nodes ← vresize (sizeSub (2 * prim_count) 1)
  let root0 ← toRes nodes[0]?
  let nodes1 ← toRes (lset? nodes 0
    { root0 with prim_count := u32 prim_count, first_index := 0 })
  let st ← build_recursive bb cc (2 * prim_count + 2) 0 ⟨nodes1, prim_indices, 1⟩
  pure ⟨st.nodes.take st.node_count, st.prim_indices⟩

/-- `Morton::grid_dim` (bvh_ploc.cpp line 193). -/
def grid_dim : Nat := 1024

/-- PLOC `search_radius` (bvh_ploc.cpp line 210). -/
def search_radius : Nat := 14

/-- One iteration of the mask loop of `Morton::split` (bvh_ploc.cpp lines
195-202).  The mask lives in a `uint64_t`; each assignment to `x` truncates
back to `uint32_t`.  The right-hand sides are computed in 64-bit
arithmetic. -/
def mortonGo : Nat → Nat → Nat → Nat → Nat
  | 0, _, _, x => x
  | i+1, n, mask, x =>
    let mask2 := ((mask ||| (mask <<< n)) &&& (((mask <<< (n / 2)) % 2 ^ 64) ^^^ (2 ^ 64 - 1))) % 2 ^ 64
    let x2 := ((x ||| (x <<< n)) &&& mask2) % 2 ^ 32
    mortonGo i (n / 2) mask2 x2

/-- `Morton::split` (bvh_ploc.cpp lines 195-202): spaces the low ten bits of
`x` two zero bits apart. -/
def mortonSplit (x : Nat) : Nat := mortonGo 5 32 (2 ^ 32 - 1) (x % 2 ^ 32)

/-- `Morton::encode` (bvh_ploc.cpp lines 204-206). -/
def mortonEncode (x y z : Nat) : Nat :=
  (mortonSplit x ||| ((mortonSplit y <<< 1) % 2 ^ 32) ||| ((mortonSplit z <<< 2) % 2 ^ 32)) % 2 ^ 32

/-- The scan loop of `find_closest_node` (bvh_ploc.cpp lines 216-225):
`k` iterations remain, `i` is the current candidate, and the accumulator
holds `(best_index, best_distance)`. -/
def fcnGo (nodes : List Node) (index : Nat) (firstN : Node) :
    Nat → Nat → Nat × FP → Nat × FP
  | 0, _, acc => acc
  | k+1, i, acc =>
    if i = index then fcnGo nodes index firstN k (i+1) acc
    else
      let second := nodes.getD i defaultNode
      let distance := (BBox.extend firstN.bbox second.bbox).half_area
      if fpLt distance acc.2 then fcnGo nodes index firstN k (i+1) (i, distance)
      else fcnGo nodes index firstN k (i+1) acc

/-- `find_closest_node` (bvh_ploc.cpp lines 209-227).  `best_index` starts
at `0` and `best_distance` at `FLT_MAX`; the comparison is a strict `<`, so
if no candidate's distance is below `FLT_MAX` the function returns `0`. -/
def find_closest_node (nodes : List Node) (index : Nat) : Nat :=
  let lo := if search_radius < index then index - search_radius else 0
  let hi := Nat.min (index + search_radius + 1) nodes.length
  (fcnGo nodes index (nodes.getD index defaultNode) (hi - lo) lo (0, .fin fltMax)).1

/-- One pass of the PLOC merge loop body (bvh_ploc.cpp lines 271-295):
iterates `i` over the working sequence, merging mutual nearest neighbours
from the side with the smaller index and carrying other nodes forward.
Returns the updated node array, cursor, and next working sequence. -/
def mergePass (current : List Node) (mi : List Nat) :
    Nat → Nat → List Node → Nat → List Node → Res (List Node × Nat × List Node)
  | 0, _, arr, cursor, next => .ok (arr, cursor, next)
  | k+1, i, arr, cursor, next => do
    let ci ← toRes current[i]?
    let j ← toRes mi[i]?
    let mj ← toRes mi[j]?
    if i = mj then
      if j < i then mergePass current mi k (i+1) arr cursor next
      else do
        let _ ← assertR (decide (2 ≤ cursor))
        let cursor2 := cursor - 2
        let cj ← toRes current[j]?
        let arr2 ← toRes (lset? arr cursor2 ci)
        let arr3 ← toRes (lset? arr2 (cursor2 + 1) cj)
        let parent := Node.mk (ci.bbox.extend cj.bbox) 0 (u32 cursor2)
        mergePass current mi k (i+1) arr3 cursor2 (next ++ [parent])
    else
      mergePass current mi k (i+1) arr cursor (next ++ [ci])

/-- The PLOC merge loop (bvh_ploc.cpp lines 267-297), with a fuel budget on
the number of passes. -/
def plocLoop : Nat → List Node → List Node → Nat → Res (List Node × List Node × Nat)
  | 0, current, arr, cursor =>
    if current.length ≤ 1 then .ok (current, arr, cursor) else .fuelOut
  | fuel+1, current, arr, cursor =>
    if current.length ≤ 1 then .ok (current, arr, cursor)
    else do
      let mi := (List.range current.length).map (find_closest_node current)
      let (arr2, cursor2, next) ← mergePass current mi current.length 0 arr cursor []
      plocLoop fuel next arr2 cursor2

/-- The Morton-code loop of the PLOC `Bvh::build` (bvh_ploc.cpp lines
239-245). -/
def computeMortons (cc : List Vec3) (center_bbox : BBox) :
    Nat → Nat → List Nat → Res (List Nat)
  | 0, _, acc => .ok acc
  | k+1, i, acc => do
    let c ← toRes cc[i]?
    let grid_pos := vmin (Vec3.splat (natToFP (grid_dim - 1)))
      (vmax (Vec3.splat (.fin (qInt 0))) (vmul (vsub c center_bbox.min)
        (vdiv (Vec3.splat (natToFP grid_dim)) center_bbox.diagonal)))
    computeMortons cc center_bbox k (i+1)
      (acc ++ [mortonEncode (fpToNat grid_pos.x) (fpToNat grid_pos.y) (fpToNat grid_pos.z)])

/-- The `std::sort` comparator of the PLOC build (bvh_ploc.cpp lines
250-252): `mortons[i] < mortons[j]`. -/
def cmpMorton (m : List Nat) (i j : Nat) : Prop := m.getD i 0 < m.getD j 0

instance (m : List Nat) : DecidableRel (cmpMorton m) := fun _ _ => Nat.decLt _ _

/-- The leaf-seeding loop of the PLOC build (bvh_ploc.cpp lines 255-261). -/
def seedLeaves (bb : List BBox) (pis : List Nat) : Nat → Nat → List Node → Res (List Node)
  | 0, _, acc => .ok acc
  | k+1, i, acc => do
    let p ← toRes pis[i]?
    let bx ← toRes bb[p]?
    seedLeaves bb pis k (i+1) (acc ++ [Node.mk bx 1 (u32 i)])

/-- `Bvh::build` of the PLOC source (bvh_ploc.cpp lines 229-303).  The sort
of the primitive indices is modelled by an insertion sort (stable); the
C++ `std::sort` guarantees only a sorted permutation. -/
def plocBuild (bb : List BBox) (cc : List Vec3) (prim_count : Nat) : Res Bvh := do
  let center_bbox := (cc.take prim_count).foldl
    (fun acc c => acc.extend (BBox.point c)) emptyBoxPloc
  let mortons ← computeMortons cc center_bbox prim_count 0 []
  let prim_indices := List.insertionSort (cmpMorton mortons) (List.range prim_count)
  let current ← seedLeaves bb prim_indices prim_count 0 []
  let arr ← vresize (sizeSub (2 * prim_count) 1)
  let res ← plocLoop prim_count current arr arr.length
  let _ ← assertR (decide (res.2.2 = 1))
  let root ← toRes res.1[0]?
  let arr3 ← toRes (lset? res.2.1 0 root)
  pure ⟨arr3, prim_indices⟩

/-- The per-leaf primitive loop of `Bvh::traverse` (part_000 lines
382-387). -/
def leafLoop (prims : List Triangle) (pis : List Nat) (first : Nat) :
    Nat → Nat → Nat → Ray → Res (Nat × Ray)
  | 0, _, hit, ray => .ok (hit, ray)
  | k+1, i, hit, ray => do
    let p ← toRes pis[first + i]?
    let tri ← toRes prims[p]?
    let pr := tri.intersect ray
    let hit2 := if pr.1 then p % 2 ^ 32 else hit
    leafLoop prims pis first k (i+1) hit2 pr.2

/-- The stack loop of `Bvh::traverse` (part_000 lines 371-394).  The stack
is a list with its head on top; an internal node pushes `first_index` then
`first_index + 1`, so `first_index + 1` is popped first. -/
def traverseGo (bvh : Bvh) (prims : List Triangle) :
    Nat → List Nat → Nat → Ray → Res (Nat × Ray)
  | 0, _, _, _ => .fuelOut
  | _+1, [], hit, ray => .ok (hit, ray)
  | fuel+1, top :: rest, hit, ray => do
    let node ← toRes bvh.nodes[top]?
    if !(nodeHit node ray) then traverseGo bvh prims fuel rest hit ray
    else if node.prim_count ≠ 0 then do
      let hr ← leafLoop prims bvh.prim_indices node.first_index node.prim_count 0 hit ray
      traverseGo bvh prims fuel rest hr.1 hr.2
    else traverseGo bvh prims fuel ((node.first_index + 1) :: node.first_index :: rest) hit ray

/-- `Bvh::traverse` (part_000 lines 371-394): seeds the stack with the root
index `0` and the hit record with the no-hit sentinel. -/
def Bvh.traverse (bvh : Bvh) (prims : List Triangle) (fuel : Nat) (ray : Ray) :
    Res (Nat × Ray) :=
  traverseGo bvh prims fuel [0] hitNone ray

/-! ### Basic lemmas about the float model -/

/-- NaN test. -/
def FP.isNan : FP → Bool
  | .nan => true
  | _ => false

theorem qle_refl (a : Q) : qLe a a = true := by simp [qLe]

theorem qle_of_qlt {a b : Q} (h : qLt a b = true) : qLe a b = true := by
  simp only [qLt, decide_eq_true_eq] at h
  simp only [qLe, decide_eq_true_eq]
  omega

theorem qle_of_not_qlt {a b : Q} (h : qLt a b = false) : qLe b a = true := by
  simp only [qLt, decide_eq_false_iff_not] at h
  simp only [qLe, decide_eq_true_eq]
  omega

theorem qle_trans {a b c : Q} (h1 : qLe a b = true) (h2 : qLe b c = true) :
    qLe a c = true := by
  simp only [qLe, decide_eq_true_eq] at h1 h2 ⊢
  have hb := b.dpos
  have h1' := mul_le_mul_of_nonneg_right h1 (le_of_lt c.dpos)
  have h2' := mul_le_mul_of_nonneg_right h2 (le_of_lt a.dpos)
  have : a.num * c.den * b.den ≤ c.num * a.den * b.den := by nlinarith
  exact le_of_mul_le_mul_right this hb

theorem fpLe_left_ne_nan {a b : FP} (h : fpLe a b = true) : a ≠ .nan := by
  intro hn; subst hn; simp [fpLe] at h

theorem fpLe_right_ne_nan {a b : FP} (h : fpLe a b = true) : b ≠ .nan := by
  intro hn; subst hn; cases a <;> simp [fpLe] at h

theorem fpLt_left_ne_nan {a b : FP} (h : fpLt a b = true) : a ≠ .nan := by
  intro hn; subst hn; simp [fpLt] at h

theorem fpLt_right_ne_nan {a b : FP} (h : fpLt a b = true) : b ≠ .nan := by
  intro hn; subst hn; cases a <;> simp [fpLt] at h

theorem fpLe_refl {a : FP} (h : a ≠ .nan) : fpLe a a = true := by
  cases a with
  | nan => exact absurd rfl h
  | inf => rfl
  | ninf => rfl
  | fin q => simpa [fpLe] using qle_refl q

theorem fpLe_trans {a b c : FP} (h1 : fpLe a b = true) (h2 : fpLe b c = true) :
    fpLe a c = true := by
  cases a <;> cases b <;> cases c <;>
    simp_all [fpLe] <;> exact qle_trans h1 h2

theorem fpLe_of_fpLt {a b : FP} (h : fpLt a b = true) : fpLe a b = true := by
  cases a <;> cases b <;> simp_all [fpLt, fpLe] <;> exact qle_of_qlt h

theorem fpLe_of_not_fpLt {a b : FP} (ha : a ≠ .nan) (hb : b ≠ .nan)
    (h : fpLt a b = false) : fpLe b a = true := by
  cases a <;> cases b <;> simp_all [fpLt, fpLe] <;> exact qle_of_not_qlt h

theorem stdMin_le_left {a b : FP} (ha : a ≠ .nan) : fpLe (stdMin a b) a = true := by
  unfold stdMin
  by_cases h : fpLt b a = true
  · simp only [h, if_true]; exact fpLe_of_fpLt h
  · simp only [eq_false_of_ne_true h, if_false]; exact fpLe_refl ha

theorem stdMin_le_right {a b : FP} (ha : a ≠ .nan) (hb : b ≠ .nan) :
    fpLe (stdMin a b) b = true := by
  unfold stdMin
  by_cases h : fpLt b a = true
  · simp only [h, if_true]; exact fpLe_refl hb
  · simp only [eq_false_of_ne_true h, if_false]
    exact fpLe_of_not_fpLt hb ha (eq_false_of_ne_true h)

theorem stdMax_ge_left {a b : FP} (ha : a ≠ .nan) : fpLe a (stdMax a b) = true := by
  unfold stdMax
  by_cases h : fpLt a b = true
  · simp only [h, if_true]; exact fpLe_of_fpLt h
  · simp only [eq_false_of_ne_true h, if_false]; exact fpLe_refl ha

theorem stdMax_ge_right {a b : FP} (ha : a ≠ .nan) (hb : b ≠ .nan) :
    fpLe b (stdMax a b) = true := by
  unfold stdMax
  by_cases h : fpLt a b = true
  · simp only [h, if_true]; exact fpLe_refl hb
  · simp only [eq_false_of_ne_true h, if_false]
    exact fpLe_of_not_fpLt ha hb (eq_false_of_ne_true h)

theorem stdMin_ne_nan {a b : FP} (ha : a ≠ .nan) : stdMin a b ≠ .nan := by
  unfold stdMin
  by_cases h : fpLt b a = true
  · simp only [h, if_true]; exact fpLt_left_ne_nan h
  · simp only [eq_false_of_ne_true h, if_false]; exact ha

theorem stdMax_ne_nan {a b : FP} (ha : a ≠ .nan) : stdMax a b ≠ .nan := by
  unfold stdMax
  by_cases h : fpLt a b = true
  · simp only [h, if_true]; exact fpLt_right_ne_nan h
  · simp only [eq_false_of_ne_true h, if_false]; exact ha

/-! ### Box order and containment -/

/-- Componentwise `<=` on vectors. -/
def vecLe (a b : Vec3) : Bool := fpLe a.x b.x && fpLe a.y b.y && fpLe a.z b.z

/-- A proper box: `min <= max` componentwise (the invariant of non-empty
input boxes; it implies that no coordinate is NaN). -/
def properBox (b : BBox) : Bool := vecLe b.min b.max

/-- Box containment: `outer.min <= inner.min` and `inner.max <= outer.max`
componentwise. -/
def boxContains (outer inner : BBox) : Bool :=
  vecLe outer.min inner.min && vecLe inner.max outer.max

/-- No coordinate of the vector is NaN. -/
def vecNoNan (v : Vec3) : Bool := !v.x.isNan && !v.y.isNan && !v.z.isNan

/-- No coordinate of the box is NaN. -/
def boxNoNan (b : BBox) : Bool := vecNoNan b.min && vecNoNan b.max

theorem ne_nan_of_isNan_false {a : FP} (h : a.isNan = false) : a ≠ .nan := by
  intro hn; subst hn; simp [FP.isNan] at h

theorem isNan_false_of_ne_nan {a : FP} (h : a ≠ .nan) : a.isNan = false := by
  cases a <;> simp_all [FP.isNan]

theorem properBox_noNan {b : BBox} (h : properBox b = true) : boxNoNan b = true := by
  simp only [properBox, vecLe, Bool.and_eq_true] at h
  obtain ⟨⟨h1, h2⟩, h3⟩ := h
  simp only [boxNoNan, vecNoNan, Bool.and_eq_true, Bool.not_eq_true']
  exact ⟨⟨⟨isNan_false_of_ne_nan (fpLe_left_ne_nan h1),
          isNan_false_of_ne_nan (fpLe_left_ne_nan h2)⟩,
          isNan_false_of_ne_nan (fpLe_left_ne_nan h3)⟩,
        ⟨⟨isNan_false_of_ne_nan (fpLe_right_ne_nan h1),
          isNan_false_of_ne_nan (fpLe_right_ne_nan h2)⟩,
          isNan_false_of_ne_nan (fpLe_right_ne_nan h3)⟩⟩

theorem extend_noNan {a b : BBox} (ha : boxNoNan a = true) :
    boxNoNan (a.extend b) = true := by
  simp only [boxNoNan, vecNoNan, Bool.and_eq_true, Bool.not_eq_true'] at ha ⊢
  obtain ⟨⟨⟨a1, a2⟩, a3⟩, ⟨⟨a4, a5⟩, a6⟩⟩ := ha
  refine ⟨⟨⟨?_, ?_⟩, ?_⟩, ⟨⟨?_, ?_⟩, ?_⟩⟩ <;>
    simp only [BBox.extend, vmin, vmax] <;>
    first
      | exact isNan_false_of_ne_nan (stdMin_ne_nan (ne_nan_of_isNan_false ‹_›))
      | exact isNan_false_of_ne_nan (stdMax_ne_nan (ne_nan_of_isNan_false ‹_›))

theorem extend_contains_right {a b : BBox} (ha : boxNoNan a = true)
    (hb : boxNoNan b = true) : boxContains (a.extend b) b = true := by
  simp only [boxNoNan, vecNoNan, Bool.and_eq_true, Bool.not_eq_true'] at ha hb
  obtain ⟨⟨⟨a1, a2⟩, a3⟩, ⟨⟨a4, a5⟩, a6⟩⟩ := ha
  obtain ⟨⟨⟨b1, b2⟩, b3⟩, ⟨⟨b4, b5⟩, b6⟩⟩ := hb
  simp only [boxContains, vecLe, BBox.extend, vmin, vmax, Bool.and_eq_true]
  refine ⟨⟨⟨?_, ?_⟩, ?_⟩, ⟨⟨?_, ?_⟩, ?_⟩⟩ <;>
    first
      | exact stdMin_le_right (ne_nan_of_isNan_false ‹_›) (ne_nan_of_isNan_false ‹_›)
      | exact stdMax_ge_right (ne_nan_of_isNan_false ‹_›) (ne_nan_of_isNan_false ‹_›)

theorem extend_contains_left {a b : BBox} (ha : boxNoNan a = true) :
    boxContains (a.extend b) a = true := by
  simp only [boxNoNan, vecNoNan, Bool.and_eq_true, Bool.not_eq_true'] at ha
  obtain ⟨⟨⟨a1, a2⟩, a3⟩, ⟨⟨a4, a5⟩, a6⟩⟩ := ha
  simp only [boxContains, vecLe, BBox.extend, vmin, vmax, Bool.and_eq_true]
  refine ⟨⟨⟨?_, ?_⟩, ?_⟩, ⟨⟨?_, ?_⟩, ?_⟩⟩ <;>
    first
      | exact stdMin_le_left (ne_nan_of_isNan_false ‹_›)
      | exact stdMax_ge_left (ne_nan_of_isNan_false ‹_›)

theorem boxContains_trans {a b c : BBox} (h1 : boxContains a b = true)
    (h2 : boxContains b c = true) : boxContains a c = true := by
  simp only [boxContains, vecLe, Bool.and_eq_true] at h1 h2 ⊢
  obtain ⟨⟨⟨p1, p2⟩, p3⟩, ⟨⟨p4, p5⟩, p6⟩⟩ := h1
  obtain ⟨⟨⟨r1, r2⟩, r3⟩, ⟨⟨r4, r5⟩, r6⟩⟩ := h2
  exact ⟨⟨⟨fpLe_trans p1 r1, fpLe_trans p2 r2⟩, fpLe_trans p3 r3⟩,
        ⟨⟨fpLe_trans r4 p4, fpLe_trans r5 p5⟩, fpLe_trans r6 p6⟩⟩

theorem extend_mono {a b c : BBox} (h : boxContains a c = true) :
    boxContains (a.extend b) c = true := by
  have hnn : boxNoNan a = true := by
    simp only [boxContains, vecLe, Bool.and_eq_true] at h
    obtain ⟨⟨⟨p1, p2⟩, p3⟩, ⟨⟨p4, p5⟩, p6⟩⟩ := h
    simp only [boxNoNan, vecNoNan, Bool.and_eq_true, Bool.not_eq_true']
    exact ⟨⟨⟨isNan_false_of_ne_nan (fpLe_left_ne_nan p1),
            isNan_false_of_ne_nan (fpLe_left_ne_nan p2)⟩,
            isNan_false_of_ne_nan (fpLe_left_ne_nan p3)⟩,
          ⟨⟨isNan_false_of_ne_nan (fpLe_right_ne_nan p4),
            isNan_false_of_ne_nan (fpLe_right_ne_nan p5)⟩,
            isNan_false_of_ne_nan (fpLe_right_ne_nan p6)⟩⟩
  exact boxContains_trans (extend_contains_left hnn) h

/-! ### Inversion lemmas for `Res` -/

theorem bind_ok {α β : Type} {x : Res α} {f : α → Res β} {b : β}
    (h : (x >>= f) = .ok b) : ∃ a, x = .ok a ∧ f a = .ok b := by
  cases x with
  | ok a => exact ⟨a, rfl, h⟩
  | err => exact absurd h (by simp [Bind.bind, Res.bind])
  | fuelOut => exact absurd h (by simp [Bind.bind, Res.bind])

theorem toRes_ok {α : Type} {x : Option α} {a : α} (h : toRes x = .ok a) :
    x = some a := by
  cases x with
  | some v => cases h; rfl
  | none => exact absurd h (by simp [toRes])

theorem assertR_ok {b : Bool} {u : Unit} (h : assertR b = .ok u) : b = true := by
  cases hb : b <;> simp [assertR, hb] at h ⊢

theorem lset?_ok {α : Type} {l : List α} {i : Nat} {v : α} {l2 : List α}
    (h : lset? l i v = some l2) : i < l.length ∧ l2 = l.set i v := by
  by_cases hi : i < l.length
  · simp [lset?, hi] at h; exact ⟨hi, h.symm⟩
  · simp [lset?, hi] at h

/-! ### Spec-side definitions and shared concrete inputs -/

/-- Modelled from the spec (section 4.E): the entry distance
`t_enter = max(t_near.x, t_near.y, t_near.z, ray.tmin)` of the slab test,
computed with `inv = ray.inv_dir()`. -/
def slabEnter (ray : Ray) (box : BBox) : FP :=
  let inv := ray.inv_dir
  let tlo := vmul (vsub box.min ray.org) inv
  let thi := vmul (vsub box.max ray.org) inv
  let tnear := vmin tlo thi
  robust_max tnear.x (robust_max tnear.y (robust_max tnear.z ray.tmin))

/-- Modelled from the spec (section 4.E): the exit distance
`t_exit = min(t_far.x, t_far.y, t_far.z, ray.tmax)` of the slab test. -/
def slabExit (ray : Ray) (box : BBox) : FP :=
  let inv := ray.inv_dir
  let tlo := vmul (vsub box.min ray.org) inv
  let thi := vmul (vsub box.max ray.org) inv
  let tfar := vmax tlo thi
  robust_min tfar.x (robust_min tfar.y (robust_min tfar.z ray.tmax))

/-- The unit box `[0,1]^3`. -/
def boxUnit : BBox := ⟨Vec3.splat (.fin (qInt 0)), Vec3.splat (.fin (qInt 1))⟩

/-- The origin as a centroid. -/
def cZero : Vec3 := Vec3.splat (.fin (qInt 0))

/-- The point `(1,1,1)` as a centroid. -/
def cOne : Vec3 := Vec3.splat (.fin (qInt 1))

/-- A leaf covering the single permutation slot `1` (its range is
`[1, 2)`). -/
def nodeShift : Node := ⟨boxUnit, 1, 1⟩

/-- A huge but representable box `[0, 2^100]^3`: the half-area of the union
of two copies overflows single precision. -/
def bigBox : BBox :=
  ⟨Vec3.splat (.fin (qInt 0)), Vec3.splat (.fin (qInt 1267650600228229401496703205376))⟩

/-- The triangle `((-1,0,0), (1,0,0), (0,1,0))` of the spec's end-to-end
scenario 1. -/
def triDemo : Triangle :=
  ⟨⟨.fin (qInt (-1)), .fin (qInt 0), .fin (qInt 0)⟩,
   ⟨.fin (qInt 1), .fin (qInt 0), .fin (qInt 0)⟩,
   ⟨.fin (qInt 0), .fin (qInt 1), .fin (qInt 0)⟩⟩

/-- The ray `org=(0, 1/4, 1), dir=(0,0,-1), tmin=0, tmax=10`. -/
def rayDemo : Ray :=
  ⟨⟨.fin (qInt 0), .fin ⟨1, 4, by omega⟩, .fin (qInt 1)⟩,
   ⟨.fin (qInt 0), .fin (qInt 0), .fin (qInt (-1))⟩,
   .fin (qInt 0), .fin (qInt 10)⟩

/-! ### C3: the slab test and its robust min/max -/

/-- C3, counterexample: the claim says the min/max functions used in the
slab reductions return the non-NaN operand whenever exactly one of the two
operands is NaN; but `robust_min(1, NaN) = NaN` (the comparison `a < b`
fails, so the second operand — the NaN — is returned). -/
theorem C3_counterexample :
    robust_min (.fin (qInt 1)) .nan = .nan ∧
    robust_max (.fin (qInt 1)) .nan = .nan ∧
    FP.nan ≠ .fin (qInt 1) := by
  refine ⟨rfl, rfl, by decide⟩

/-- C3, amended: the slab test returns exactly the interval
`t_enter = max(t_near.x, t_near.y, t_near.z, ray.tmin)`,
`t_exit = min(t_far.x, t_far.y, t_far.z, ray.tmax)` computed with
`inv = ray.inv_dir()`, and reports a hit iff `t_enter <= t_exit`; the
robust min/max used in the reductions return the non-NaN operand whenever
their FIRST operand is NaN, but return NaN when only their second operand
is NaN. -/
theorem C3_slab_interval_and_robust :
    (∀ (n : Node) (ray : Ray),
      n.intersect ray = (slabEnter ray n.bbox, slabExit ray n.bbox)) ∧
    (∀ (n : Node) (ray : Ray),
      nodeHit n ray = fpLe (slabEnter ray n.bbox) (slabExit ray n.bbox)) ∧
    (∀ b : FP, robust_min .nan b = b ∧ robust_max .nan b = b) ∧
    (∀ a : FP, robust_min a .nan = .nan ∧ robust_max a .nan = .nan) := by
  refine ⟨fun n ray => by rfl, fun n ray => by rfl, ?_, ?_⟩
  · intro b; cases b <;> exact ⟨rfl, rfl⟩
  · intro a; cases a <;> exact ⟨rfl, rfl⟩

/-! ### C4: the Möller–Trumbore test -/

/-- C4: the Möller–Trumbore test succeeds iff `u >= 0`, `v >= 0`, `w >= 0`
and `t = dot(n, c) * inv_det` lies in `[ray.tmin, ray.tmax]` (each
comparison is false on NaN, so any NaN among `t, u, v` makes it return
false); on success it sets `ray.tmax := t` in place, and on failure the ray
is returned unchanged. -/
theorem C4_triangle_intersect :
    ∀ (tri : Triangle) (ray : Ray),
      ((tri.intersect ray).1 = true ↔
        (fpLe (.fin (qInt 0)) (mtU tri ray.org ray.dir) = true ∧
         fpLe (.fin (qInt 0)) (mtV tri ray.org ray.dir) = true ∧
         fpLe (.fin (qInt 0)) (mtW tri ray.org ray.dir) = true ∧
         fpLe ray.tmin (mtT tri ray.org ray.dir) = true ∧
         fpLe (mtT tri ray.org ray.dir) ray.tmax = true)) ∧
      (tri.intersect ray).2 =
        (if (tri.intersect ray).1 then { ray with tmax := mtT tri ray.org ray.dir }
         else ray) := by
  intro tri ray
  cases hu : fpLe (.fin (qInt 0)) (mtU tri ray.org ray.dir) <;>
  cases hv : fpLe (.fin (qInt 0)) (mtV tri ray.org ray.dir) <;>
  cases hw : fpLe (.fin (qInt 0)) (mtW tri ray.org ray.dir) <;>
  cases ht1 : fpLe ray.tmin (mtT tri ray.org ray.dir) <;>
  cases ht2 : fpLe (mtT tri ray.org ray.dir) ray.tmax <;>
  simp [Triangle.intersect, hu, hv, hw, ht1, ht2]

/-- C4, witness: the test on the spec's scenario-1 triangle and a ray
through it, checked concretely via the theorem. -/
theorem C4_witness :
    (triDemo.intersect rayDemo).1 = true ∧
    (triDemo.intersect rayDemo).2 =
      (if (triDemo.intersect rayDemo).1
       then { rayDemo with tmax := mtT triDemo rayDemo.org rayDemo.dir }
       else rayDemo) := by
  exact ⟨((C4_triangle_intersect triDemo rayDemo).1).mpr
      ⟨rfl, rfl, rfl, rfl, rfl⟩,
    (C4_triangle_intersect triDemo rayDemo).2⟩

/-! ### C7: the empty-box sentinel -/

/-- C7, counterexample: neither source variant's `BBox::empty()` equals the
claimed sentinel `min = (+inf,+inf,+inf), max = (-inf,-inf,-inf)`; the
binned-SAH variant even has min and max swapped, and extending its "empty"
box by the point `0` does not yield the bound of that point. -/
theorem C7_counterexample :
    emptyBoxSah ≠ BBox.mk (Vec3.splat .inf) (Vec3.splat .ninf) ∧
    emptyBoxPloc ≠ BBox.mk (Vec3.splat .inf) (Vec3.splat .ninf) ∧
    emptyBoxSah.extend (BBox.point cZero) ≠ BBox.point cZero := by
  refine ⟨by decide, by decide, by decide⟩

/-- C7, amended: the PLOC variant's `BBox::empty()` is the sentinel with
`min = (+FLT_MAX,...)`, `max = (-FLT_MAX,...)` (the largest finite float,
not infinity), and extending it by any box or point whose coordinates are
strictly below `FLT_MAX` in magnitude yields exactly that operand's bound;
the binned-SAH variant has the two components swapped (`min = -FLT_MAX`,
`max = +FLT_MAX`), and extending it is not a left identity. -/
theorem C7_empty_extend :
    emptyBoxPloc = BBox.mk (Vec3.splat (.fin fltMax)) (Vec3.splat (.fin (qNeg fltMax))) ∧
    (∀ b : BBox,
      (fpLt b.min.x (.fin fltMax) && fpLt b.min.y (.fin fltMax) && fpLt b.min.z (.fin fltMax)) = true →
      (fpLt (.fin (qNeg fltMax)) b.max.x && fpLt (.fin (qNeg fltMax)) b.max.y && fpLt (.fin (qNeg fltMax)) b.max.z) = true →
      emptyBoxPloc.extend b = b) ∧
    (∀ p : Vec3,
      (fpLt p.x (.fin fltMax) && fpLt p.y (.fin fltMax) && fpLt p.z (.fin fltMax)) = true →
      (fpLt (.fin (qNeg fltMax)) p.x && fpLt (.fin (qNeg fltMax)) p.y && fpLt (.fin (qNeg fltMax)) p.z) = true →
      emptyBoxPloc.extend (BBox.point p) = BBox.point p) ∧
    emptyBoxSah = BBox.mk (Vec3.splat (.fin (qNeg fltMax))) (Vec3.splat (.fin fltMax)) := by
  have hext : ∀ b : BBox,
      (fpLt b.min.x (.fin fltMax) && fpLt b.min.y (.fin fltMax) && fpLt b.min.z (.fin fltMax)) = true →
      (fpLt (.fin (qNeg fltMax)) b.max.x && fpLt (.fin (qNeg fltMax)) b.max.y && fpLt (.fin (qNeg fltMax)) b.max.z) = true →
      emptyBoxPloc.extend b = b := by
    intro b h1 h2
    simp only [Bool.and_eq_true] at h1 h2
    obtain ⟨⟨m1, m2⟩, m3⟩ := h1
    obtain ⟨⟨x1, x2⟩, x3⟩ := h2
    cases b with
    | mk bmin bmax =>
      cases bmin; cases bmax
      simp only [BBox.extend, emptyBoxPloc, Vec3.splat, vmin, vmax, stdMin, stdMax] at *
      simp [m1, m2, m3, x1, x2, x3]
  exact ⟨rfl, hext, fun p h1 h2 => hext (BBox.point p) h1 h2, rfl⟩

/-- C7, witness: extending the PLOC empty box by the unit box yields the
unit box. -/
theorem C7_witness : emptyBoxPloc.extend boxUnit = boxUnit :=
  C7_empty_extend.2.1 boxUnit (by decide) (by decide)

/-! ### C10: bin_index is always in range -/

/-- C10: for every axis, box and centroid — however degenerate (the
unclamped value may be negative, out of range, infinite or NaN) —
`bin_index` returns a value below `bin_count`; the clamp bounds every
possible result of the float-to-int conversion, so every bin-array access
indexed by `bin_index` is in bounds. -/
theorem C10_bin_index_in_range :
    (∀ (axis : Nat) (bbox : BBox) (center : Vec3),
      bin_index axis bbox center < binCount) ∧
    (∀ k : Int, clampBin k < binCount) ∧
    (∀ (bins : List Bin) (axis : Nat) (bbox : BBox) (center : Vec3),
      bins.length = binCount →
      (bins[bin_index axis bbox center]?).isSome = true) := by
  have hclamp : ∀ k : Int, clampBin k < binCount := by
    intro k
    have h1 : clampBin k ≤ binCount - 1 := Nat.min_le_left _ _
    have h2 : binCount = 16 := rfl
    omega
  refine ⟨fun axis bbox center => hclamp _, hclamp, ?_⟩
  intro bins axis bbox center hlen
  have h : bin_index axis bbox center < bins.length := by rw [hlen]; exact hclamp _
  simp [List.getElem?_eq_getElem h]

/-- C10, witness: the bin array of `find_best_split`'s shape, indexed at a
degenerate input (zero-extent box, so the unclamped value is NaN), is
accessed in bounds. -/
theorem C10_witness :
    bin_index 0 (BBox.point cZero) cZero < binCount ∧
    clampBin (-5) < binCount ∧
    ((List.replicate binCount defaultBin)[bin_index 0 (BBox.point cZero) cZero]?).isSome = true := by
  exact ⟨C10_bin_index_in_range.1 0 (BBox.point cZero) cZero,
    C10_bin_index_in_range.2.1 (-5),
    C10_bin_index_in_range.2.2 (List.replicate binCount defaultBin) 0
      (BBox.point cZero) cZero (by decide)⟩

/-! ### C1: the SAH node box and binning read the wrong range -/

/-- The box every SAH node ends up with: seeding from the swapped "empty"
sentinel `(-FLT_MAX, +FLT_MAX)` makes `extend` a no-op for finite input
boxes. -/
def allSpaceBox : BBox := ⟨Vec3.splat (.fin (qNeg fltMax)), Vec3.splat (.fin fltMax)⟩

/-- C1: evaluating the binned-SAH builder at a single primitive with box
`[0,1]^3` shows the node's box is NOT the union of its primitives' boxes
(it is the all-space box, because `BBox::empty()` has min and max swapped,
so `extend` never shrinks it); and the binning loop of `find_best_split`
on a node whose range is the permutation slot `[1, 2)` counts the
primitive at permutation slot `0` (bin 0, the bin of `centers[0]`) instead
of the one at slot `1` (whose center falls in bin 15): both loops index
`prim_indices[i]` for `i < prim_count` instead of
`prim_indices[first_index + i]`. -/
theorem C1_sah_wrong_range :
    sahBuild [boxUnit] [cZero] 1 = .ok ⟨[⟨allSpaceBox, 1, 0⟩], [0]⟩ ∧
    allSpaceBox ≠ boxUnit ∧
    accumBins 0 [boxUnit, boxUnit] [cZero, cOne] [0, 1] nodeShift 1 0
      (List.replicate binCount defaultBin) =
      .ok (Bin.mk emptyBoxSah 1 :: List.replicate 15 (Bin.mk emptyBoxSah 0)) ∧
    bin_index 0 nodeShift.bbox cZero = 0 ∧
    bin_index 0 nodeShift.bbox cOne = 15 := by
  exact ⟨rfl, by decide, rfl, rfl, rfl⟩

/-! ### C5: building with zero primitives does not return an empty BVH -/

/-- C5: with `prim_count = 0` both builders request
`nodes.resize(2 * 0 - 1)`, which underflows `size_t` to `2^64 - 1` and
makes the resize fail instead of returning an empty BVH; and traversing a
BVH with an empty node array unconditionally reads `nodes[0]` out of
bounds instead of returning the no-hit sentinel. -/
theorem C5_empty_build_fails :
    sizeSub (2 * 0) 1 = 2 ^ 64 - 1 ∧
    sahBuild [] [] 0 = .err ∧
    plocBuild [] [] 0 = .err ∧
    Bvh.traverse ⟨[], []⟩ [triDemo] 5 rayDemo = .err := by
  exact ⟨rfl, rfl, rfl, rfl⟩

/-! ### C6: the PLOC merge loop can stall and fail its assertion -/

/-- C6: on two primitives whose boxes are `[0, 2^100]^3`, every candidate
distance in `find_closest_node` saturates to infinity, so the strict
comparison against the `FLT_MAX` starting value never fires and every
node's merge partner is `0` — including node `0` itself.  Node `0` then
"merges with itself" (the mutual-neighbour test `m(m(0)) == 0` passes
and `0 > 0` fails), the working sequence never shrinks, the cursor is
decremented by 2 every pass, and on the second pass the assertion
`insertion_index >= 2` fails — the build does not terminate with
`cursor == 1`. -/
theorem C6_ploc_merge_stalls :
    find_closest_node [Node.mk bigBox 1 0, Node.mk bigBox 1 1] 0 = 0 ∧
    find_closest_node [Node.mk bigBox 1 0, Node.mk bigBox 1 1] 1 = 0 ∧
    plocBuild [bigBox, bigBox] [cZero, cOne] 2 = .err := by
  exact ⟨rfl, rfl, rfl⟩

/-! ### C9: traversal mutates only tmax -/

/-- Frame fact about one triangle test: the returned ray is the input ray
with `tmax` replaced by the computed `t` on success, and the input ray
unchanged on failure. -/
theorem triangle_intersect_frame (tri : Triangle) (ray : Ray) :
    (tri.intersect ray).2 =
      (if (tri.intersect ray).1 then { ray with tmax := mtT tri ray.org ray.dir }
       else ray) := by
  cases hu : fpLe (.fin (qInt 0)) (mtU tri ray.org ray.dir) <;>
  cases hv : fpLe (.fin (qInt 0)) (mtV tri ray.org ray.dir) <;>
  cases hw : fpLe (.fin (qInt 0)) (mtW tri ray.org ray.dir) <;>
  cases ht1 : fpLe ray.tmin (mtT tri ray.org ray.dir) <;>
  cases ht2 : fpLe (mtT tri ray.org ray.dir) ray.tmax <;>
  simp [Triangle.intersect, hu, hv, hw, ht1, ht2]

/-- The invariant maintained by traversal: the ray agrees with the original
on `org`, `dir` and `tmin`; with no hit recorded `tmax` is the original
`tmax`; with a hit recorded, the hit is a valid primitive index and `tmax`
is that primitive's computed `t` (which depends only on `org` and `dir`). -/
def travInv (prims : List Triangle) (ray0 : Ray) (hit : Nat) (ray : Ray) : Prop :=
  ray.org = ray0.org ∧ ray.dir = ray0.dir ∧ ray.tmin = ray0.tmin ∧
  (hit = hitNone → ray.tmax = ray0.tmax) ∧
  (hit ≠ hitNone → ∃ p, p < prims.length ∧ hit = p ∧
    ∃ tri, prims[p]? = some tri ∧ ray.tmax = mtT tri ray0.org ray0.dir)

theorem leafLoop_inv (prims : List Triangle) (pis : List Nat) (first : Nat)
    (ray0 : Ray) (hsz : prims.length < 2 ^ 32) :
    ∀ (k i : Nat) (hit : Nat) (ray : Ray) (out : Nat × Ray),
      leafLoop prims pis first k i hit ray = .ok out →
      travInv prims ray0 hit ray → travInv prims ray0 out.1 out.2 := by
  intro k
  induction k with
  | zero =>
    intro i hit ray out h hinv
    cases h; exact hinv
  | succ k ih =>
    intro i hit ray out h hinv
    unfold leafLoop at h
    obtain ⟨p, hp, h⟩ := bind_ok h
    obtain ⟨tri, htri, h⟩ := bind_ok h
    replace hp := toRes_ok hp
    replace htri := toRes_ok htri
    refine ih (i+1) _ _ out h ?_
    obtain ⟨h1, h2, h3, h4, h5⟩ := hinv
    have hframe := triangle_intersect_frame tri ray
    cases hb : (tri.intersect ray).1 with
    | false =>
      rw [hb, if_neg (by simp)] at hframe
      simp only [hb, if_neg, Bool.false_eq_true, if_false]
      rw [hframe]
      exact ⟨h1, h2, h3, h4, h5⟩
    | true =>
      rw [hb, if_pos rfl] at hframe
      simp only [hb, if_true]
      have hplen : p < prims.length := by
        by_contra hge
        rw [List.getElem?_eq_none (by omega)] at htri
        exact Option.noConfusion htri
      have hmod : p % 2 ^ 32 = p := Nat.mod_eq_of_lt (by omega)
      rw [hmod, hframe]
      refine ⟨h1, h2, h3, ?_, ?_⟩
      · intro hne
        exfalso
        have : p = hitNone := hne
        unfold hitNone at this
        omega
      · intro _
        exact ⟨p, hplen, rfl, tri, htri, by simp [h1, h2]⟩

theorem traverseGo_inv (bvh : Bvh) (prims : List Triangle) (ray0 : Ray)
    (hsz : prims.length < 2 ^ 32) :
    ∀ (fuel : Nat) (stack : List Nat) (hit : Nat) (ray : Ray) (out : Nat × Ray),
      traverseGo bvh prims fuel stack hit ray = .ok out →
      travInv prims ray0 hit ray → travInv prims ray0 out.1 out.2 := by
  intro fuel
  induction fuel with
  | zero => intro stack hit ray out h; cases h
  | succ fuel ih =>
    intro stack hit ray out h hinv
    cases stack with
    | nil => cases h; exact hinv
    | cons top rest =>
      unfold traverseGo at h
      obtain ⟨node, hnode, h⟩ := bind_ok h
      by_cases hh : nodeHit node ray = true
      · rw [if_neg (by simp [hh])] at h
        by_cases hleaf : node.prim_count ≠ 0
        · rw [if_pos hleaf] at h
          obtain ⟨hr, hhr, h⟩ := bind_ok h
          exact ih rest _ _ out h (leafLoop_inv prims bvh.prim_indices
            node.first_index ray0 hsz _ _ _ _ hr hhr hinv)
        · rw [if_neg hleaf] at h
          exact ih _ _ _ out h hinv
      · rw [if_pos (by simp [hh])] at h
        exact ih rest _ _ out h hinv

/-- C9: whenever traversal returns, it has mutated only the ray's `tmax`:
`org`, `dir` and `tmin` are unchanged; if it returns the no-hit sentinel,
`tmax` is unchanged as well; and if it returns a hit, the hit is a valid
primitive index and `tmax` equals that primitive's hit distance
`t = dot(n, c) * inv_det` (the closest accepted hit, which each successive
accepted test only decreases). -/
theorem C9_traverse_mutates_only_tmax :
    ∀ (bvh : Bvh) (prims : List Triangle) (fuel : Nat) (ray : Ray) (out : Nat × Ray),
      fpLe ray.tmin ray.tmax = true →
      prims.length < 2 ^ 32 →
      bvh.traverse prims fuel ray = .ok out →
      out.2.org = ray.org ∧ out.2.dir = ray.dir ∧ out.2.tmin = ray.tmin ∧
      (out.1 = hitNone → out.2.tmax = ray.tmax) ∧
      (out.1 ≠ hitNone → ∃ p, p < prims.length ∧ out.1 = p ∧
        ∃ tri, prims[p]? = some tri ∧ out.2.tmax = mtT tri ray.org ray.dir) := by
  intro bvh prims fuel ray out _ hsz h
  have hinv0 : travInv prims ray hitNone ray :=
    ⟨rfl, rfl, rfl, fun _ => rfl, fun hne => absurd rfl hne⟩
  exact traverseGo_inv bvh prims ray hsz fuel [0] hitNone ray out h hinv0

/-- The concrete result of traversing a one-node BVH over the demo
triangle with the demo ray: hit at primitive 0, `tmax` advanced to 1. -/
def outDemo : Nat × Ray :=
  (0, ⟨rayDemo.org, rayDemo.dir, rayDemo.tmin, .fin ⟨8, 8, by omega⟩⟩)

/-- C9, witness: a one-node BVH over the demo triangle traversed by the
demo ray; the traversal returns and the theorem's conclusions hold
concretely. -/
theorem C9_witness :
    fpLe rayDemo.tmin rayDemo.tmax = true ∧
    (outDemo.2.org = rayDemo.org ∧ outDemo.2.dir = rayDemo.dir ∧
      outDemo.2.tmin = rayDemo.tmin ∧
      (outDemo.1 = hitNone → outDemo.2.tmax = rayDemo.tmax) ∧
      (outDemo.1 ≠ hitNone → ∃ p, p < ([triDemo] : List Triangle).length ∧
        outDemo.1 = p ∧ ∃ tri, ([triDemo] : List Triangle)[p]? = some tri ∧
          outDemo.2.tmax = mtT tri rayDemo.org rayDemo.dir)) :=
  ⟨by decide,
   C9_traverse_mutates_only_tmax (Bvh.mk [⟨boxUnit, 1, 0⟩] [0]) [triDemo] 5 rayDemo
     outDemo (by decide) (by decide) (by rfl)⟩

/-! ### Leaf-cell bookkeeping -/

/-- The primitive-permutation slots covered by a node if it is a leaf:
`[first_index, first_index + prim_count)`.  An internal node (and the
default node) has `prim_count = 0` and covers nothing. -/
def nodeCells (nd : Node) : List Nat := List.range' nd.first_index nd.prim_count

/-- The multiset of permutation slots covered by the leaves of a node
list. -/
def leafCellsM (l : List Node) : Multiset Nat :=
  (l.map (fun nd => (nodeCells nd : Multiset Nat))).sum

theorem leafCellsM_nil : leafCellsM [] = 0 := rfl

theorem leafCellsM_cons (nd : Node) (l : List Node) :
    leafCellsM (nd :: l) = (nodeCells nd : Multiset Nat) + leafCellsM l := by
  simp [leafCellsM]

theorem leafCellsM_append (a b : List Node) :
    leafCellsM (a ++ b) = leafCellsM a + leafCellsM b := by
  simp [leafCellsM]

theorem leafCellsM_set (l : List Node) (k : Nat) (h : k < l.length) (v : Node) :
    leafCellsM (l.set k v) + (nodeCells (l.getD k defaultNode) : Multiset Nat) =
      leafCellsM l + (nodeCells v : Multiset Nat) := by
  have hset : l.set k v = l.take k ++ v :: l.drop (k + 1) := by
    rw [List.set_eq_take_append_cons_drop, if_pos h]
  have hl : l = l.take k ++ l[k] :: l.drop (k + 1) := by
    conv_lhs => rw [← List.take_append_drop k l]
    rw [List.drop_eq_getElem_cons h]
  have hgetD : l.getD k defaultNode = l[k] := List.getD_eq_getElem l defaultNode h
  rw [hset, hgetD]
  conv_rhs => rw [hl]
  rw [leafCellsM_append, leafCellsM_append, leafCellsM_cons, leafCellsM_cons]
  abel

theorem leafCellsM_take_succ (l : List Node) (n : Nat) (h : n < l.length) :
    leafCellsM (l.take (n + 1)) =
      leafCellsM (l.take n) + (nodeCells l[n] : Multiset Nat) := by
  rw [List.take_succ, leafCellsM_append, List.getElem?_eq_getElem h]
  simp [leafCellsM]

/-! ### Facts about the SAH split decision -/

theorem subrange_split {α : Type} (l : List α) (first count : Nat) :
    l.take first ++ (l.drop first).take count ++ l.drop (first + count) = l := by
  have h1 : l.drop (first + count) = (l.drop first).drop count := by
    rw [List.drop_drop, Nat.add_comm]
  rw [h1, List.append_assoc, List.take_append_drop, List.take_append_drop]

theorem replaceMid_perm {α : Type} {l m : List α} (first count : Nat)
    (hmid : m.Perm ((l.drop first).take count)) :
    (l.take first ++ m ++ l.drop (first + count)).Perm l := by
  have step : (l.take first ++ m ++ l.drop (first + count)).Perm
      (l.take first ++ (l.drop first).take count ++ l.drop (first + count)) :=
    List.Perm.append_right _ (List.Perm.append_left _ hmid)
  rw [subrange_split l first count] at step
  exact step

theorem sortRange_ok {cc : List Vec3} {axis : Nat} {l : List Nat} {first count : Nat}
    {out : List Nat} (h : sortRange cc axis l first count = .ok out) :
    out.Perm l := by
  unfold sortRange at h
  by_cases hle : first + count ≤ l.length
  · rw [if_pos hle] at h
    cases h
    exact replaceMid_perm first count (List.perm_insertionSort _ _)
  · rw [if_neg hle] at h
    cases h

theorem partitionRange_ok {p : Nat → Bool} {l : List Nat} {first count : Nat}
    {out : List Nat × Nat} (h : partitionRange p l first count = .ok out) :
    out.1.Perm l ∧ first ≤ out.2 ∧ out.2 ≤ first + count := by
  unfold partitionRange at h
  by_cases hle : first + count ≤ l.length
  · rw [if_pos hle] at h
    cases h
    refine ⟨?_, by omega, ?_⟩
    · have := replaceMid_perm (l := l) first count
        (m := ((l.drop first).take count).filter p
          ++ ((l.drop first).take count).filter (fun x => !(p x)))
        (List.filter_append_perm p _)
      simpa [List.append_assoc] using this
    · have h1 : (((l.drop first).take count).filter p).length ≤
          ((l.drop first).take count).length := List.length_filter_le _ _
      have h2 : ((l.drop first).take count).length ≤ count := by
        simp [List.length_take]
      omega
  · rw [if_neg hle] at h
    cases h

theorem sahDecide_ok {bb : List BBox} {cc : List Vec3} {st1 : BuildSt} {node1 : Node}
    {r : Option (List Nat × Nat)} (h : sahDecide bb cc st1 node1 = .ok r) :
    r = none ∨ ∃ pis1 fr, r = some (pis1, fr) ∧ pis1.Perm st1.prim_indices ∧
      node1.first_index ≤ fr ∧ fr ≤ node1.first_index + node1.prim_count := by
  unfold sahDecide at h
  obtain ⟨s0, _, h⟩ := bind_ok h
  obtain ⟨s1, _, h⟩ := bind_ok h
  obtain ⟨s2, _, h⟩ := bind_ok h
  by_cases hb : ((stdMinSplit (stdMinSplit (stdMinSplit (defaultSplit 0) s0) s1) s2).right_bin = 0
      || fpLt (fpMul node1.bbox.half_area (fpSub (natToFP node1.prim_count) (.fin (qInt 1))))
        (stdMinSplit (stdMinSplit (stdMinSplit (defaultSplit 0) s0) s1) s2).cost) = true
  · rw [if_pos hb] at h
    by_cases hmax : max_prims < node1.prim_count
    · rw [if_pos hmax] at h
      obtain ⟨pis1, hpis, h⟩ := bind_ok h
      cases h
      refine Or.inr ⟨pis1, _, rfl, sortRange_ok hpis, by omega, by omega⟩
    · rw [if_neg hmax] at h
      cases h
      exact Or.inl rfl
  · rw [if_neg hb] at h
    obtain ⟨pr, hpr, h⟩ := bind_ok h
    cases h
    obtain ⟨hperm, hlo, hhi⟩ := partitionRange_ok hpr
    exact Or.inr ⟨pr.1, pr.2, rfl, hperm, hlo, hhi⟩

theorem pure_ok {α : Type} {x y : α} (h : (pure x : Res α) = .ok y) : x = y := by
  have h2 : Res.ok x = Res.ok y := h
  injection h2

theorem getElem?_inv {α : Type} {l : List α} {i : Nat} {v : α} (h : l[i]? = some v) :
    i < l.length := (List.getElem?_eq_some.mp h).1

/-- The main invariant of `build_recursive`: a successful call preserves the
node-array length, only grows the allocation counter (keeping it within the
array), permutes `prim_indices`, preserves the multiset of leaf-covered
permutation slots in the allocated window, leaves every other already
allocated node untouched, and stores at `node_index` a node whose box is
the one computed by the (buggy) `extendPrims` loop. -/
theorem u32_eq {a : Nat} (h : a < 2 ^ 32) : u32 a = a := Nat.mod_eq_of_lt h

theorem u32_sizeSub {a b : Nat} (hba : b ≤ a) (h : a < 2 ^ 32) :
    u32 (sizeSub a b) = a - b := by
  unfold u32 sizeSub
  omega

theorem usub32_eq {a b : Nat} (hba : b ≤ a) (h : a < 2 ^ 32) :
    usub32 a b = a - b := by
  unfold usub32
  omega

theorem build_recursive_inv (bb : List BBox) (cc : List Vec3) :
    ∀ (fuel k : Nat) (st st' : BuildSt),
      build_recursive bb cc fuel k st = .ok st' →
      k < st.node_count →
      st.node_count ≤ st.nodes.length →
      st.prim_indices.length < 2 ^ 32 →
      (∀ (j : Nat) (nd : Node), st.nodes[j]? = some nd → 0 < nd.prim_count →
        nd.first_index + nd.prim_count ≤ st.prim_indices.length) →
      st'.nodes.length = st.nodes.length ∧
      st.node_count ≤ st'.node_count ∧
      st'.node_count ≤ st'.nodes.length ∧
      st'.prim_indices.Perm st.prim_indices ∧
      leafCellsM (st'.nodes.take st'.node_count) = leafCellsM (st.nodes.take st.node_count) ∧
      (∀ j, j < st.node_count → j ≠ k → st'.nodes[j]? = st.nodes[j]?) ∧
      (∃ nd0 nd, st.nodes[k]? = some nd0 ∧ st'.nodes[k]? = some nd ∧
        extendPrims bb st.prim_indices nd0.prim_count 0 emptyBoxSah = .ok nd.bbox) ∧
      (∀ (j : Nat) (nd : Node), st'.nodes[j]? = some nd → 0 < nd.prim_count →
        nd.first_index + nd.prim_count ≤ st'.prim_indices.length) := by
  intro fuel
  induction fuel with
  | zero => intro k st st' h _ _ _ _; cases h
  | succ fuel ih =>
    intro k st st' h hk hle hpl hwf
    unfold build_recursive at h
    obtain ⟨node0, hn0, h⟩ := bind_ok h
    replace hn0 := toRes_ok hn0
    have hklen : k < st.nodes.length := getElem?_inv hn0
    obtain ⟨u, hu, h⟩ := bind_ok h
    have hpos : 0 < node0.prim_count := by
      have hleaf := assertR_ok hu
      unfold Node.is_leaf at hleaf
      have := of_decide_eq_true hleaf
      omega
    have hwfk : node0.first_index + node0.prim_count ≤ st.prim_indices.length :=
      hwf k node0 hn0 hpos
    obtain ⟨bbox1, hbx, h⟩ := bind_ok h
    obtain ⟨nodes1, hset1, h⟩ := bind_ok h
    replace hset1 := toRes_ok hset1
    obtain ⟨-, hnodes1⟩ := lset?_ok hset1
    -- facts shared by the two leaf-return paths
    have hcells1 : leafCellsM (nodes1.take st.node_count) =
        leafCellsM (st.nodes.take st.node_count) := by
      subst hnodes1
      rw [List.set_take]
      have hkt : k < (st.nodes.take st.node_count).length := by
        simp [List.length_take]; omega
      have hset := leafCellsM_set (st.nodes.take st.node_count) k hkt
        { node0 with bbox := bbox1 }
      have hgd : (st.nodes.take st.node_count).getD k defaultNode = node0 := by
        rw [List.getD_eq_getElem _ _ hkt, List.getElem_take]
        exact (List.getElem?_eq_some.mp hn0).2
      rw [hgd] at hset
      have hcc : (nodeCells { node0 with bbox := bbox1 } : Multiset Nat) =
          (nodeCells node0 : Multiset Nat) := rfl
      rw [hcc] at hset
      exact add_right_cancel hset
    have hframe1 : ∀ j, j ≠ k → nodes1[j]? = st.nodes[j]? := by
      intro j hj
      subst hnodes1
      exact List.getElem?_set_ne (Ne.symm hj)
    have hself1 : nodes1[k]? = some { node0 with bbox := bbox1 } := by
      subst hnodes1
      exact List.getElem?_set_self hklen
    have hlen1 : nodes1.length = st.nodes.length := by
      subst hnodes1; exact List.length_set st.nodes k _
    have hwf1 : ∀ (j : Nat) (nd : Node), nodes1[j]? = some nd → 0 < nd.prim_count →
        nd.first_index + nd.prim_count ≤ st.prim_indices.length := by
      intro j nd hj hp
      by_cases hjk : j = k
      · subst hjk
        rw [hself1] at hj
        cases hj
        exact hwfk
      · rw [hframe1 j hjk] at hj
        exact hwf j nd hj hp
    split at h
    · -- prim_count < min_prims: terminate with a leaf
      replace h := pure_ok h
      subst h
      refine ⟨hlen1, le_refl _, show st.node_count ≤ nodes1.length by omega,
        List.Perm.refl _, hcells1, fun j _ hj => hframe1 j hj,
        ⟨node0, _, hn0, hself1, hbx⟩, hwf1⟩
    · -- try to split
      obtain ⟨dec, hdec, h⟩ := bind_ok h
      rcases sahDecide_ok hdec with rfl | ⟨pis1, fr, rfl, hperm1, hfr1, hfr2⟩
      · -- no split: leaf
        replace h := pure_ok h
        subst h
        refine ⟨hlen1, le_refl _, show st.node_count ≤ nodes1.length by omega,
          List.Perm.refl _, hcells1, fun j _ hj => hframe1 j hj,
          ⟨node0, _, hn0, hself1, hbx⟩, hwf1⟩
      · -- split into two children
        obtain ⟨left0, hl0, h⟩ := bind_ok h
        replace hl0 := toRes_ok hl0
        obtain ⟨right0, hr0, h⟩ := bind_ok h
        replace hr0 := toRes_ok hr0
        obtain ⟨nodes2, hset2, h⟩ := bind_ok h
        replace hset2 := toRes_ok hset2
        obtain ⟨hfclen, hnodes2⟩ := lset?_ok hset2
        obtain ⟨nodes3, hset3, h⟩ := bind_ok h
        replace hset3 := toRes_ok hset3
        obtain ⟨hfc1len, hnodes3⟩ := lset?_ok hset3
        obtain ⟨nodes4, hset4, h⟩ := bind_ok h
        replace hset4 := toRes_ok hset4
        obtain ⟨hklen4, hnodes4⟩ := lset?_ok hset4
        obtain ⟨st4, hst4, h⟩ := bind_ok h
        dsimp only at hl0 hr0 hfclen hfc1len hklen4 hnodes2 hnodes3 hnodes4 hst4 h hfr1 hfr2
        have hfrlt : fr < 2 ^ 32 := by omega
        have e1 : u32 (sizeSub fr node0.first_index) = fr - node0.first_index :=
          u32_sizeSub hfr1 hfrlt
        have e2 : usub32 node0.prim_count (fr - node0.first_index) =
            node0.prim_count - (fr - node0.first_index) :=
          usub32_eq (by omega) (by omega)
        rw [e1] at hnodes2 hnodes3
        rw [e2, u32_eq hfrlt] at hnodes3
        have hplen1 : pis1.length = st.prim_indices.length := hperm1.length_eq
        -- lengths
        have hlen2 : nodes2.length = st.nodes.length := by
          subst hnodes2; rw [List.length_set, hlen1]
        have hlen3 : nodes3.length = st.nodes.length := by
          subst hnodes3; rw [List.length_set, hlen2]
        have hlen4 : nodes4.length = st.nodes.length := by
          subst hnodes4; rw [List.length_set, hlen3]
        have hnc2 : st.node_count + 2 ≤ st.nodes.length := by
          rw [hlen2] at hfc1len
          omega
        -- the well-formedness of the leaf ranges survives the two child writes
        have hwf3 : ∀ (j : Nat) (nd : Node), nodes4[j]? = some nd → 0 < nd.prim_count →
            nd.first_index + nd.prim_count ≤ pis1.length := by
          intro j nd hj hp
          rw [hplen1]
          by_cases hjk : j = k
          · subst hjk
            subst hnodes4
            rw [List.getElem?_set_self hklen4] at hj
            cases hj
            simp at hp
          · by_cases hjl : j = st.node_count
            · subst hjl
              subst hnodes4 hnodes3
              rw [List.getElem?_set_ne (by omega), List.getElem?_set_ne (by omega)] at hj
              subst hnodes2
              rw [List.getElem?_set_self hfclen] at hj
              cases hj
              show node0.first_index + (fr - node0.first_index) ≤ st.prim_indices.length
              omega
            · by_cases hjr : j = st.node_count + 1
              · subst hjr
                subst hnodes4 hnodes3
                rw [List.getElem?_set_ne (by omega)] at hj
                rw [List.getElem?_set_self hfc1len] at hj
                cases hj
                show fr + (node0.prim_count - (fr - node0.first_index)) ≤
                  st.prim_indices.length
                omega
              · subst hnodes4 hnodes3 hnodes2
                rw [List.getElem?_set_ne (Ne.symm hjk), List.getElem?_set_ne (Ne.symm hjr),
                  List.getElem?_set_ne (Ne.symm hjl)] at hj
                rw [hframe1 j hjk] at hj
                exact hwf j nd hj hp
        -- invariants for the recursion on the left child
        have ihL := ih st.node_count _ _ hst4
          (show st.node_count < st.node_count + 2 by omega)
          (show st.node_count + 2 ≤ nodes4.length by omega)
          (show pis1.length < 2 ^ 32 by omega)
          hwf3
        obtain ⟨L1, L2, L3, L4, L5, L6, -, L8⟩ := ihL
        dsimp only at L1 L2 L4 L5 L6
        -- invariants for the recursion on the right child
        have ihR := ih (st.node_count + 1) _ _ h
          (show st.node_count + 1 < st4.node_count by omega)
          L3
          (show st4.prim_indices.length < 2 ^ 32 by
            have := L4.length_eq
            omega)
          L8
        obtain ⟨R1, R2, R3, R4, R5, R6, -, R8⟩ := ihR
        refine ⟨?_, ?_, R3, ?_, ?_, ?_, ?_, R8⟩
        · rw [R1, L1, hlen4]
        · omega
        · exact (R4.trans L4).trans hperm1
        · -- the leaf-cell multiset is preserved
          rw [R5, L5]
          have hw2 : st.node_count + 1 < nodes4.length := by omega
          have hw1 : st.node_count < nodes4.length := by omega
          rw [leafCellsM_take_succ nodes4 (st.node_count + 1) hw2,
            leafCellsM_take_succ nodes4 st.node_count hw1]
          have hg1 : nodes4[st.node_count]? =
              some (Node.mk left0.bbox (fr - node0.first_index) node0.first_index) := by
            subst hnodes4 hnodes3
            rw [List.getElem?_set_ne (by omega), List.getElem?_set_ne (by omega)]
            subst hnodes2
            exact List.getElem?_set_self hfclen
          have hg2 : nodes4[st.node_count + 1]? =
              some (Node.mk right0.bbox
                (node0.prim_count - (fr - node0.first_index)) fr) := by
            subst hnodes4
            rw [List.getElem?_set_ne (by omega)]
            subst hnodes3
            exact List.getElem?_set_self hfc1len
          have hg1' : nodes4[st.node_count] =
              Node.mk left0.bbox (fr - node0.first_index) node0.first_index := by
            have := List.getElem?_eq_getElem hw1
            rw [hg1] at this
            exact (Option.some.inj this).symm
          have hg2' : nodes4[st.node_count + 1] =
              Node.mk right0.bbox (node0.prim_count - (fr - node0.first_index)) fr := by
            have := List.getElem?_eq_getElem hw2
            rw [hg2] at this
            exact (Option.some.inj this).symm
          rw [hg1', hg2']
          -- take node_count of nodes4 is take node_count of st.nodes with slot k set
          have htk : nodes4.take st.node_count =
              (st.nodes.take st.node_count).set k (Node.mk bbox1 0 (u32 st.node_count)) := by
            apply List.ext_getElem?
            intro j
            by_cases hjlt : j < st.node_count
            · rw [List.getElem?_take, if_pos hjlt]
              by_cases hjk : j = k
              · subst hjk
                rw [List.getElem?_set_self (by simp [List.length_take]; omega)]
                subst hnodes4
                rw [List.getElem?_set_self (by omega)]
              · rw [List.getElem?_set_ne (Ne.symm hjk), List.getElem?_take, if_pos hjlt]
                subst hnodes4 hnodes3 hnodes2 hnodes1
                rw [List.getElem?_set_ne (Ne.symm hjk), List.getElem?_set_ne (by omega),
                  List.getElem?_set_ne (by omega), List.getElem?_set_ne (Ne.symm hjk)]
            · rw [List.getElem?_eq_none (by simp [List.length_take]; omega),
                List.getElem?_eq_none (by simp [List.length_take]; omega)]
          rw [htk]
          have hkt : k < (st.nodes.take st.node_count).length := by
            simp [List.length_take]; omega
          have hset := leafCellsM_set (st.nodes.take st.node_count) k hkt
            (Node.mk bbox1 0 (u32 st.node_count))
          have hgd : (st.nodes.take st.node_count).getD k defaultNode = node0 := by
            rw [List.getD_eq_getElem _ _ hkt, List.getElem_take]
            exact (List.getElem?_eq_some.mp hn0).2
          rw [hgd] at hset
          have hzero : (nodeCells (Node.mk bbox1 0 (u32 st.node_count)) : Multiset Nat) = 0 := by
            simp [nodeCells]
          rw [hzero, add_zero] at hset
          have hlist :
              nodeCells (Node.mk left0.bbox (fr - node0.first_index) node0.first_index)
              ++ nodeCells (Node.mk right0.bbox
                (node0.prim_count - (fr - node0.first_index)) fr) =
              nodeCells node0 := by
            simp only [nodeCells]
            have hra := List.range'_append node0.first_index (fr - node0.first_index)
              (node0.prim_count - (fr - node0.first_index)) 1
            simp only [one_mul] at hra
            rw [show node0.first_index + (fr - node0.first_index) = fr by omega] at hra
            rw [hra]
            congr 1
            omega
          have hcellssum :
              (nodeCells (Node.mk left0.bbox (fr - node0.first_index) node0.first_index)
                : Multiset Nat) +
              (nodeCells (Node.mk right0.bbox
                (node0.prim_count - (fr - node0.first_index)) fr) : Multiset Nat) =
              (nodeCells node0 : Multiset Nat) := by
            have hc : ((nodeCells (Node.mk left0.bbox (fr - node0.first_index) node0.first_index)
                ++ nodeCells (Node.mk right0.bbox
                  (node0.prim_count - (fr - node0.first_index)) fr) : List Nat)
                : Multiset Nat) = (nodeCells node0 : Multiset Nat) := by rw [hlist]
            simpa using hc
          calc leafCellsM ((st.nodes.take st.node_count).set k (Node.mk bbox1 0 (u32 st.node_count)))
                + (nodeCells (Node.mk left0.bbox (fr - node0.first_index) node0.first_index)
                  : Multiset Nat)
                + (nodeCells (Node.mk right0.bbox
                    (node0.prim_count - (fr - node0.first_index)) fr) : Multiset Nat)
              = leafCellsM ((st.nodes.take st.node_count).set k (Node.mk bbox1 0 (u32 st.node_count)))
                + (nodeCells node0 : Multiset Nat) := by
                rw [add_assoc, hcellssum]
            _ = leafCellsM (st.nodes.take st.node_count) := hset
        · -- frame
          intro j hj hjk
          have e1 : st'.nodes[j]? = st4.nodes[j]? := R6 j (by omega) (by omega)
          have e2 : st4.nodes[j]? = nodes4[j]? := L6 j (by omega) (by omega)
          rw [e1, e2]
          subst hnodes4 hnodes3 hnodes2
          rw [List.getElem?_set_ne (Ne.symm hjk), List.getElem?_set_ne (by omega),
            List.getElem?_set_ne (by omega)]
          exact hframe1 j hjk
        · -- the node at k keeps the computed box
          refine ⟨node0, Node.mk bbox1 0 (u32 st.node_count), hn0, ?_, hbx⟩
          have e1 : st'.nodes[k]? = st4.nodes[k]? := R6 k (by omega) (by omega)
          have e2 : st4.nodes[k]? = nodes4[k]? := L6 k (by omega) (by omega)
          rw [e1, e2]
          subst hnodes4
          exact List.getElem?_set_self hklen4

theorem emptyBoxSah_noNan : boxNoNan emptyBoxSah = true := by decide

theorem extendPrims_contains (bb : List BBox)
    (hbb : ∀ bx ∈ bb, properBox bx = true) (pis : List Nat) :
    ∀ (k i : Nat) (acc B : BBox),
      extendPrims bb pis k i acc = .ok B →
      boxNoNan acc = true →
      boxNoNan B = true ∧
      (∀ c : BBox, boxContains acc c = true → boxContains B c = true) ∧
      (∀ j, i ≤ j → j < i + k → ∀ p bx, pis[j]? = some p → bb[p]? = some bx →
        boxContains B bx = true) := by
  intro k
  induction k with
  | zero =>
    intro i acc B h hacc
    cases h
    exact ⟨hacc, fun c hc => hc, fun j h1 h2 => by omega⟩
  | succ k ihk =>
    intro i acc B h hacc
    unfold extendPrims at h
    obtain ⟨p, hp, h⟩ := bind_ok h
    replace hp := toRes_ok hp
    obtain ⟨bx, hbxr, h⟩ := bind_ok h
    replace hbxr := toRes_ok hbxr
    have hbxmem : bx ∈ bb := List.getElem?_mem hbxr
    have hbxprop : properBox bx = true := hbb bx hbxmem
    have hbxnn : boxNoNan bx = true := properBox_noNan hbxprop
    have haccnn : boxNoNan (acc.extend bx) = true := extend_noNan hacc
    obtain ⟨ih1, ih2, ih3⟩ := ihk (i+1) (acc.extend bx) B h haccnn
    refine ⟨ih1, ?_, ?_⟩
    · intro c hc
      exact ih2 c (extend_mono hc)
    · intro j h1 h2 p2 bx2 hp2 hbx2
      by_cases hj : j = i
      · subst hj
        rw [hp] at hp2
        cases hp2
        rw [hbxr] at hbx2
        cases hbx2
        exact ih2 bx (extend_contains_right hacc hbxnn)
      · exact ih3 j (by omega) (by omega) p2 bx2 hp2 hbx2

theorem boxContains_self {b : BBox} (h : properBox b = true) :
    boxContains b b = true := by
  simp only [properBox, vecLe, Bool.and_eq_true] at h
  obtain ⟨⟨h1, h2⟩, h3⟩ := h
  simp only [boxContains, vecLe, Bool.and_eq_true]
  refine ⟨⟨⟨?_, ?_⟩, ?_⟩, ⟨⟨?_, ?_⟩, ?_⟩⟩ <;>
    first
      | exact fpLe_refl (fpLe_left_ne_nan ‹_›)
      | exact fpLe_refl (fpLe_right_ne_nan ‹_›)

theorem vresize_ok {len : Nat} {l : List Node} (h : vresize len = .ok l) :
    l = List.replicate len defaultNode ∧ len ≤ maxAlloc := by
  unfold vresize at h
  by_cases hle : len ≤ maxAlloc
  · rw [if_pos hle] at h
    cases h
    exact ⟨rfl, hle⟩
  · rw [if_neg hle] at h
    cases h

theorem sizeSub_le {n : Nat} (hn : 1 ≤ n) : sizeSub (2 * n) 1 ≤ 2 * n - 1 := by
  unfold sizeSub
  omega

/-- The binned-SAH half of the C2 invariants. -/
theorem sahBuild_invariants (bb : List BBox) (cc : List Vec3) (n : Nat) (b : Bvh)
    (hn : 0 < n) (hn32 : n < 2 ^ 32) (hbb : ∀ bx ∈ bb, properBox bx = true)
    (h : sahBuild bb cc n = .ok b) :
    b.prim_indices.Perm (List.range n) ∧
    leafCellsM b.nodes = (List.range n : Multiset Nat) ∧
    b.nodes.length ≤ 2 * n - 1 ∧
    (∀ i bx, i < n → bb[i]? = some bx →
      boxContains (b.nodes.getD 0 defaultNode).bbox bx = true) := by
  unfold sahBuild at h
  rw [u32_eq hn32] at h
  obtain ⟨nodes, hres, h⟩ := bind_ok h
  obtain ⟨hrep, hmax⟩ := vresize_ok hres
  obtain ⟨root0, hroot0, h⟩ := bind_ok h
  replace hroot0 := toRes_ok hroot0
  have h0len : 0 < nodes.length := getElem?_inv hroot0
  obtain ⟨nodes1, hset, h⟩ := bind_ok h
  replace hset := toRes_ok hset
  obtain ⟨-, hnodes1⟩ := lset?_ok hset
  obtain ⟨st', hrec, h⟩ := bind_ok h
  replace h := pure_ok h
  have hlen1 : nodes1.length = nodes.length := by
    subst hnodes1; exact List.length_set nodes 0 _
  have hwf0 : ∀ (j : Nat) (nd : Node), nodes1[j]? = some nd → 0 < nd.prim_count →
      nd.first_index + nd.prim_count ≤ (List.range n).length := by
    intro j nd hj hp
    rw [List.length_range]
    by_cases hj0 : j = 0
    · subst hj0
      subst hnodes1
      rw [List.getElem?_set_self h0len] at hj
      cases hj
      show 0 + n ≤ n
      omega
    · subst hnodes1
      rw [List.getElem?_set_ne (Ne.symm hj0), hrep, List.getElem?_replicate] at hj
      by_cases hlt : j < sizeSub (2 * n) 1
      · rw [if_pos hlt] at hj
        cases hj
        simp [defaultNode] at hp
      · rw [if_neg hlt] at hj
        cases hj
  have hM := build_recursive_inv bb cc (2 * n + 2) 0
    ⟨nodes1, List.range n, 1⟩ st' hrec (show (0:Nat) < 1 by omega)
    (show 1 ≤ nodes1.length by omega)
    (show (List.range n).length < 2 ^ 32 by rw [List.length_range]; exact hn32)
    hwf0
  obtain ⟨M1, M2, M3, M4, M5, M6, M7, -⟩ := hM
  dsimp only at M1 M2 M4 M5 M6 M7
  subst h
  have hself : nodes1[0]? = some { root0 with prim_count := n, first_index := 0 } := by
    subst hnodes1
    exact List.getElem?_set_self h0len
  refine ⟨M4.trans (List.Perm.refl _), ?_, ?_, ?_⟩
  · -- leaf cells of the final node array
    have htake1 : nodes1.take 1 = [{ root0 with prim_count := n, first_index := 0 }] := by
      have : nodes1.take 1 = nodes1.take 0 ++ nodes1[0]?.toList := List.take_succ
      rw [hself] at this
      simpa using this
    rw [M5, htake1]
    simp [leafCellsM, nodeCells, List.range_eq_range' n]
  · -- node count bound
    have hL : nodes.length = sizeSub (2 * n) 1 := by
      rw [hrep]; exact List.length_replicate _ _
    have := sizeSub_le (n := n) (by omega)
    simp only [List.length_take]
    omega
  · -- the root box contains every input box
    intro i bx hi hbx
    obtain ⟨nd0, nd, hnd0, hnd, hext⟩ := M7
    rw [hself] at hnd0
    have hnd0' : nd0 = { root0 with prim_count := n, first_index := 0 } :=
      (Option.some.inj hnd0).symm
    subst hnd0'
    dsimp only at hext
    have hroot : (st'.nodes.take st'.node_count).getD 0 defaultNode = nd := by
      have h0 : 0 < (st'.nodes.take st'.node_count).length := by
        simp only [List.length_take]
        omega
      rw [List.getD_eq_getElem _ _ h0, List.getElem_take]
      have := List.getElem?_eq_getElem (getElem?_inv hnd)
      rw [hnd] at this
      exact (Option.some.inj this).symm
    rw [hroot]
    obtain ⟨-, -, hreads⟩ := extendPrims_contains bb hbb (List.range n) n 0
      emptyBoxSah nd.bbox hext emptyBoxSah_noNan
    exact hreads i (by omega) (by omega) i bx
      (by rw [List.getElem?_range hi]) hbx

/-! ### PLOC merge-pass bookkeeping -/

/-- The merge condition tested at position `i` of a pass: `i` and its merge
partner point at each other and `i` is not the larger side. -/
def isMergeStep (mi : List Nat) (i : Nat) : Bool :=
  decide (mi.getD (mi.getD i 0) 0 = i) && !(decide (mi.getD i 0 < i))

/-- The skip condition at position `i`: mutual partners, handled from the
smaller side, so the larger side is skipped. -/
def isSkipStep (mi : List Nat) (i : Nat) : Bool :=
  decide (mi.getD (mi.getD i 0) 0 = i) && decide (mi.getD i 0 < i)

/-- A degenerate "self-merge" step: `find_closest_node` returned the node's
own index. -/
def isSelfStep (mi : List Nat) (i : Nat) : Bool := decide (mi.getD i 0 = i)

/-- A proper pair merge: a merge that is not a self-merge. -/
def isPairStep (mi : List Nat) (i : Nat) : Bool := isMergeStep mi i && !(isSelfStep mi i)

/-- Number of merge steps among pass positions `[i, i + k)`. -/
def mergeCount (mi : List Nat) (k i : Nat) : Nat :=
  ((List.range' i k).filter (isMergeStep mi)).length

/-- Number of skip steps among pass positions `[i, i + k)`. -/
def skipCount (mi : List Nat) (k i : Nat) : Nat :=
  ((List.range' i k).filter (isSkipStep mi)).length

/-- The multiset of leaf cells that the pass moves out of the working
sequence from position `i` on (both children of each merge, nothing for a
skip, the node itself when carried). -/
def passCellsM (current : List Node) (mi : List Nat) : Nat → Nat → Multiset Nat
  | 0, _ => 0
  | k+1, i =>
    let j := mi.getD i 0
    let rest := passCellsM current mi k (i+1)
    if mi.getD j 0 = i then
      if j < i then rest
      else (nodeCells (current.getD i defaultNode) : Multiset Nat)
        + (nodeCells (current.getD j defaultNode) : Multiset Nat) + rest
    else (nodeCells (current.getD i defaultNode) : Multiset Nat) + rest

/-- The cells of positions in `[i, i + k)` whose mutual merge partner lies
below `bound` (they were already written to the output array). -/
def deadCellsM (current : List Node) (mi : List Nat) (bound k i : Nat) : Multiset Nat :=
  (((List.range' i k).filter (fun x => decide (mi.getD x 0 < bound) &&
      decide (mi.getD (mi.getD x 0) 0 = x))).map
    (fun x => (nodeCells (current.getD x defaultNode) : Multiset Nat))).sum

theorem filter_extract {l : List Nat} (hl : l.Nodup) {P Q : Nat → Bool} {j : Nat}
    (hj : j ∈ l) (hPj : P j = true) (hQj : Q j = false)
    (hothers : ∀ x ∈ l, x ≠ j → P x = Q x) :
    (l.filter P).Perm (j :: l.filter Q) := by
  induction l with
  | nil => cases hj
  | cons a l ihl =>
    rcases List.mem_cons.mp hj with heq | hmem
    · subst heq
      have hnotin : j ∉ l := (List.nodup_cons.mp hl).1
      have hfeq : l.filter P = l.filter Q := by
        apply List.filter_congr
        intro x hx
        exact hothers x (List.mem_cons_of_mem j hx) (fun he => hnotin (he ▸ hx))
      simp only [List.filter_cons, hPj, hQj, if_pos, Bool.false_eq_true, if_false]
      rw [hfeq]
    · have hne : a ≠ j := fun he => (List.nodup_cons.mp hl).1 (he ▸ hmem)
      have hPa : P a = Q a := hothers a (List.mem_cons_self a l) hne
      have ihp := ihl (List.nodup_cons.mp hl).2 hmem
        (fun x hx hxj => hothers x (List.mem_cons_of_mem a hx) hxj)
      cases hqa : Q a with
      | true =>
        simp only [List.filter_cons, hPa, hqa, if_pos]
        exact (ihp.cons a).trans (List.Perm.swap j a _)
      | false =>
        simp only [List.filter_cons, hPa, hqa, Bool.false_eq_true, if_false]
        exact ihp

theorem getD_of_getElem? {α : Type} {l : List α} {i : Nat} {v d : α}
    (h : l[i]? = some v) : l.getD i d = v := by
  rw [List.getD_eq_getElem?_getD, h]; rfl

theorem mergeCount_succ (mi : List Nat) (k i : Nat) :
    mergeCount mi (k+1) i = (if isMergeStep mi i then 1 else 0) + mergeCount mi k (i+1) := by
  simp only [mergeCount, List.range'_succ, List.filter_cons]
  by_cases h : isMergeStep mi i = true <;> simp [h, Nat.add_comm]

theorem skipCount_succ (mi : List Nat) (k i : Nat) :
    skipCount mi (k+1) i = (if isSkipStep mi i then 1 else 0) + skipCount mi k (i+1) := by
  simp only [skipCount, List.range'_succ, List.filter_cons]
  by_cases h : isSkipStep mi i = true <;> simp [h, Nat.add_comm]

theorem filter_or_disjoint {α : Type} (l : List α) (p q : α → Bool)
    (hd : ∀ x ∈ l, ¬(p x = true ∧ q x = true)) :
    (l.filter (fun x => p x || q x)).length =
      (l.filter p).length + (l.filter q).length := by
  induction l with
  | nil => rfl
  | cons a l ihl =>
    have ihl2 := ihl (fun x hx => hd x (List.mem_cons_of_mem a hx))
    have hda := hd a (List.mem_cons_self a l)
    simp only [List.filter_cons]
    cases hp : p a <;> cases hq : q a <;> simp_all <;> omega

theorem drop_set_two {α : Type} (l : List α) (c : Nat) (x y : α)
    (h : c + 1 < l.length) :
    ((l.set c x).set (c+1) y).drop c = x :: y :: l.drop (c+2) := by
  have hlen : ((l.set c x).set (c+1) y).length = l.length := by
    simp [List.length_set]
  have hc : c < ((l.set c x).set (c+1) y).length := by omega
  have hc1 : c + 1 < ((l.set c x).set (c+1) y).length := by omega
  rw [List.drop_eq_getElem_cons hc, List.drop_eq_getElem_cons hc1]
  have hgx? : ((l.set c x).set (c+1) y)[c]? = some x := by
    rw [List.getElem?_set_ne (by omega), List.getElem?_set_self]
    omega
  have hgy? : ((l.set c x).set (c+1) y)[c+1]? = some y := by
    rw [List.getElem?_set_self]
    simp only [List.length_set]; omega
  rw [(List.getElem?_eq_some.mp hgx?).2, (List.getElem?_eq_some.mp hgy?).2]
  congr 2
  apply List.ext_getElem?
  intro m
  rw [List.getElem?_drop, List.getElem?_drop,
    List.getElem?_set_ne (by omega), List.getElem?_set_ne (by omega)]

theorem fcnGo_mem (nodes : List Node) (index : Nat) (firstN : Node) :
    ∀ k i acc, (fcnGo nodes index firstN k i acc).1 = acc.1 ∨
      (i ≤ (fcnGo nodes index firstN k i acc).1 ∧
        (fcnGo nodes index firstN k i acc).1 < i + k) := by
  intro k
  induction k with
  | zero => intro i acc; exact Or.inl rfl
  | succ k ih =>
    intro i acc
    rw [fcnGo]
    by_cases hi : i = index
    · rw [if_pos hi]
      rcases ih (i+1) acc with h | h
      · exact Or.inl h
      · exact Or.inr ⟨by omega, by omega⟩
    · rw [if_neg hi]
      by_cases hlt : fpLt ((BBox.extend firstN.bbox (nodes.getD i defaultNode).bbox).half_area) acc.2 = true
      · rw [if_pos hlt]
        rcases ih (i+1) (i, (BBox.extend firstN.bbox (nodes.getD i defaultNode).bbox).half_area) with h | h
        · exact Or.inr ⟨by rw [h], by rw [h]; omega⟩
        · exact Or.inr ⟨by omega, by omega⟩
      · rw [if_neg hlt]
        rcases ih (i+1) acc with h | h
        · exact Or.inl h
        · exact Or.inr ⟨by omega, by omega⟩

theorem find_closest_node_lt (nodes : List Node) (index : Nat)
    (hlen : 0 < nodes.length) : find_closest_node nodes index < nodes.length := by
  unfold find_closest_node
  dsimp only
  rcases fcnGo_mem nodes index (nodes.getD index defaultNode)
    (Nat.min (index + search_radius + 1) nodes.length -
      (if search_radius < index then index - search_radius else 0))
    (if search_radius < index then index - search_radius else 0)
    (0, .fin fltMax) with h | h
  · rw [h]; exact hlen
  · have : Nat.min (index + search_radius + 1) nodes.length ≤ nodes.length :=
      Nat.min_le_right _ _
    omega

theorem properBox_extend {a : BBox} (b : BBox) (ha : properBox a = true) :
    properBox (a.extend b) = true := by
  have hnn : boxNoNan a = true := properBox_noNan ha
  have hcl := extend_contains_left (b := b) hnn
  simp only [properBox, vecLe, Bool.and_eq_true] at ha ⊢
  simp only [boxContains, vecLe, Bool.and_eq_true] at hcl
  obtain ⟨⟨a1, a2⟩, a3⟩ := ha
  obtain ⟨⟨⟨p1, p2⟩, p3⟩, ⟨⟨p4, p5⟩, p6⟩⟩ := hcl
  exact ⟨⟨fpLe_trans p1 (fpLe_trans a1 p4), fpLe_trans p2 (fpLe_trans a2 p5)⟩,
    fpLe_trans p3 (fpLe_trans a3 p6)⟩

/-- One-step unfolding of `passCellsM`. -/
theorem passCellsM_succ (current : List Node) (mi : List Nat) (k i : Nat) :
    passCellsM current mi (k+1) i =
      (if mi.getD (mi.getD i 0) 0 = i then
        if mi.getD i 0 < i then passCellsM current mi k (i+1)
        else (nodeCells (current.getD i defaultNode) : Multiset Nat) +
          (nodeCells (current.getD (mi.getD i 0) defaultNode) : Multiset Nat) +
          passCellsM current mi k (i+1)
       else (nodeCells (current.getD i defaultNode) : Multiset Nat) +
          passCellsM current mi k (i+1)) := rfl

theorem mergePass_count (current : List Node) (mi : List Nat) :
    ∀ k i arr cursor next out,
      mergePass current mi k i arr cursor next = .ok out →
      out.2.1 + 2 * mergeCount mi k i = cursor ∧
      out.1.length = arr.length ∧
      out.2.2.length + skipCount mi k i = next.length + k := by
  intro k
  induction k with
  | zero =>
    intro i arr cursor next out hok
    cases hok
    refine ⟨?_, rfl, ?_⟩ <;> simp [mergeCount, skipCount]
  | succ k ih =>
    intro i arr cursor next out hok
    unfold mergePass at hok
    obtain ⟨ci, hci, hok⟩ := bind_ok hok
    replace hci := toRes_ok hci
    obtain ⟨j, hj, hok⟩ := bind_ok hok
    replace hj := toRes_ok hj
    obtain ⟨mj, hmj, hok⟩ := bind_ok hok
    replace hmj := toRes_ok hmj
    have hjD : mi.getD i 0 = j := getD_of_getElem? hj
    have hmjD : mi.getD j 0 = mj := getD_of_getElem? hmj
    rw [mergeCount_succ, skipCount_succ]
    by_cases hieq : i = mj
    · rw [if_pos hieq] at hok
      by_cases hji : j < i
      · rw [if_pos hji] at hok
        obtain ⟨hA, hB, hC⟩ := ih (i+1) arr cursor next out hok
        have e1 : (if isMergeStep mi i then 1 else 0) = 0 := by
          have : isMergeStep mi i = false := by
            unfold isMergeStep
            rw [hjD, hmjD, ← hieq]
            simp [hji]
          rw [this]; rfl
        have e2 : (if isSkipStep mi i then 1 else 0) = 1 := by
          have : isSkipStep mi i = true := by
            unfold isSkipStep
            rw [hjD, hmjD, ← hieq]
            simp [hji]
          rw [this]; rfl
        exact ⟨by omega, hB, by omega⟩
      · rw [if_neg hji] at hok
        obtain ⟨u, hu, hok⟩ := bind_ok hok
        have hc2 : 2 ≤ cursor := by simpa using assertR_ok hu
        obtain ⟨cj, hcj, hok⟩ := bind_ok hok
        replace hcj := toRes_ok hcj
        obtain ⟨arr2, ha2, hok⟩ := bind_ok hok
        obtain ⟨hb2, harr2⟩ := lset?_ok (toRes_ok ha2)
        obtain ⟨arr3, ha3, hok⟩ := bind_ok hok
        obtain ⟨hb3, harr3⟩ := lset?_ok (toRes_ok ha3)
        obtain ⟨hA, hB, hC⟩ := ih (i+1) arr3 (cursor - 2)
          (next ++ [Node.mk (ci.bbox.extend cj.bbox) 0 (u32 (cursor - 2))]) out hok
        have hl2 : arr2.length = arr.length := by rw [harr2]; exact List.length_set _ _ _
        have hl3 : arr3.length = arr2.length := by rw [harr3]; exact List.length_set _ _ _
        have e1 : (if isMergeStep mi i then 1 else 0) = 1 := by
          have : isMergeStep mi i = true := by
            unfold isMergeStep
            rw [hjD, hmjD, ← hieq]
            simp [hji]
          rw [this]; rfl
        have e2 : (if isSkipStep mi i then 1 else 0) = 0 := by
          have : isSkipStep mi i = false := by
            unfold isSkipStep
            rw [hjD, hmjD, ← hieq]
            simp [hji]
          rw [this]; rfl
        have hln : (next ++ [Node.mk (ci.bbox.extend cj.bbox) 0 (u32 (cursor - 2))]).length =
            next.length + 1 := by simp
        exact ⟨by omega, by omega, by omega⟩
    · rw [if_neg hieq] at hok
      obtain ⟨hA, hB, hC⟩ := ih (i+1) arr cursor (next ++ [ci]) out hok
      have hne : mj ≠ i := fun he => hieq he.symm
      have e1 : (if isMergeStep mi i then 1 else 0) = 0 := by
        have : isMergeStep mi i = false := by
          unfold isMergeStep
          rw [hjD, hmjD]
          simp [hne]
        rw [this]; rfl
      have e2 : (if isSkipStep mi i then 1 else 0) = 0 := by
        have : isSkipStep mi i = false := by
          unfold isSkipStep
          rw [hjD, hmjD]
          simp [hne]
        rw [this]; rfl
      have hln : (next ++ [ci]).length = next.length + 1 := by simp
      exact ⟨by omega, hB, by omega⟩

theorem mergePass_cells (current : List Node) (mi : List Nat) :
    ∀ k i arr cursor next out,
      mergePass current mi k i arr cursor next = .ok out →
      leafCellsM (out.1.drop out.2.1) + leafCellsM out.2.2 =
        leafCellsM (arr.drop cursor) + leafCellsM next +
          passCellsM current mi k i := by
  intro k
  induction k with
  | zero =>
    intro i arr cursor next out hok
    cases hok
    show leafCellsM (arr.drop cursor) + leafCellsM next =
      leafCellsM (arr.drop cursor) + leafCellsM next + passCellsM current mi 0 i
    rw [show passCellsM current mi 0 i = 0 from rfl, add_zero]
  | succ k ih =>
    intro i arr cursor next out hok
    unfold mergePass at hok
    obtain ⟨ci, hci, hok⟩ := bind_ok hok
    replace hci := toRes_ok hci
    obtain ⟨j, hj, hok⟩ := bind_ok hok
    replace hj := toRes_ok hj
    obtain ⟨mj, hmj, hok⟩ := bind_ok hok
    replace hmj := toRes_ok hmj
    have hjD : mi.getD i 0 = j := getD_of_getElem? hj
    have hmjD : mi.getD j 0 = mj := getD_of_getElem? hmj
    have hciD : current.getD i defaultNode = ci := getD_of_getElem? hci
    rw [passCellsM_succ, hjD, hmjD]
    by_cases hieq : i = mj
    · rw [if_pos hieq.symm]
      rw [if_pos hieq] at hok
      by_cases hji : j < i
      · rw [if_pos hji] at hok
        rw [if_pos hji]
        exact ih (i+1) arr cursor next out hok
      · rw [if_neg hji] at hok
        rw [if_neg hji]
        obtain ⟨u, hu, hok⟩ := bind_ok hok
        have hc2 : 2 ≤ cursor := by simpa using assertR_ok hu
        obtain ⟨cj, hcj, hok⟩ := bind_ok hok
        replace hcj := toRes_ok hcj
        have hcjD : current.getD j defaultNode = cj := getD_of_getElem? hcj
        obtain ⟨arr2, ha2, hok⟩ := bind_ok hok
        obtain ⟨hb2, harr2⟩ := lset?_ok (toRes_ok ha2)
        obtain ⟨arr3, ha3, hok⟩ := bind_ok hok
        obtain ⟨hb3, harr3⟩ := lset?_ok (toRes_ok ha3)
        have ihh := ih (i+1) arr3 (cursor - 2)
          (next ++ [Node.mk (ci.bbox.extend cj.bbox) 0 (u32 (cursor - 2))]) out hok
        have hb3' : cursor - 2 + 1 < arr.length := by
          have : arr2.length = arr.length := by rw [harr2]; exact List.length_set _ _ _
          omega
        have hdrop : arr3.drop (cursor - 2) = ci :: cj :: arr.drop cursor := by
          rw [harr3, harr2]
          have := drop_set_two arr (cursor - 2) ci cj hb3'
          rw [show cursor - 2 + 2 = cursor from by omega] at this
          exact this
        rw [hdrop] at ihh
        rw [leafCellsM_cons, leafCellsM_cons, leafCellsM_append, leafCellsM_cons,
          leafCellsM_nil] at ihh
        have hpc : (nodeCells (Node.mk (ci.bbox.extend cj.bbox) 0 (u32 (cursor - 2))) :
            Multiset Nat) = 0 := rfl
        rw [hpc] at ihh
        rw [ihh, hciD, hcjD]
        abel
    · have hne : ¬(mj = i) := fun he => hieq he.symm
      rw [if_neg hne]
      rw [if_neg hieq] at hok
      have ihh := ih (i+1) arr cursor (next ++ [ci]) out hok
      rw [leafCellsM_append, leafCellsM_cons, leafCellsM_nil] at ihh
      rw [ihh, hciD]
      abel

theorem mergePass_boxes (current : List Node) (mi : List Nat)
    (hcur : ∀ nd ∈ current, properBox nd.bbox = true) :
    ∀ k i arr cursor next out,
      mergePass current mi k i arr cursor next = .ok out →
      (∀ nd ∈ next, properBox nd.bbox = true) →
      (∀ x, x < current.length →
        (x < i ∨ (mi.getD (mi.getD x 0) 0 = x ∧ mi.getD x 0 < x ∧ mi.getD x 0 < i)) →
        ∃ nd ∈ next, boxContains nd.bbox ((current.getD x defaultNode).bbox) = true) →
      (∀ nd ∈ out.2.2, properBox nd.bbox = true) ∧
      (∀ x, x < current.length →
        (x < i + k ∨ (mi.getD (mi.getD x 0) 0 = x ∧ mi.getD x 0 < x ∧ mi.getD x 0 < i + k)) →
        ∃ nd ∈ out.2.2, boxContains nd.bbox ((current.getD x defaultNode).bbox) = true) := by
  intro k
  induction k with
  | zero =>
    intro i arr cursor next out hok hnext hH
    cases hok
    exact ⟨hnext, fun x hx hc => hH x hx (by simpa using hc)⟩
  | succ k ih =>
    intro i arr cursor next out hok hnext hH
    rw [show i + (k+1) = i + 1 + k from by omega]
    unfold mergePass at hok
    obtain ⟨ci, hci, hok⟩ := bind_ok hok
    replace hci := toRes_ok hci
    obtain ⟨j, hj, hok⟩ := bind_ok hok
    replace hj := toRes_ok hj
    obtain ⟨mj, hmj, hok⟩ := bind_ok hok
    replace hmj := toRes_ok hmj
    have hjD : mi.getD i 0 = j := getD_of_getElem? hj
    have hmjD : mi.getD j 0 = mj := getD_of_getElem? hmj
    have hciD : current.getD i defaultNode = ci := getD_of_getElem? hci
    have hcimem : ci ∈ current := List.getElem?_mem hci
    have hcip : properBox ci.bbox = true := hcur ci hcimem
    by_cases hieq : i = mj
    · rw [if_pos hieq] at hok
      by_cases hji : j < i
      · rw [if_pos hji] at hok
        refine ih (i+1) arr cursor next out hok hnext ?_
        intro x hx hc
        apply hH x hx
        rcases hc with hlt | ⟨hmut, hxlt, hbnd⟩
        · by_cases hxi : x < i
          · exact Or.inl hxi
          · have hxe : x = i := by omega
            subst hxe
            exact Or.inr ⟨by rw [hjD, hmjD, ← hieq], by omega, by omega⟩
        · by_cases hbi : mi.getD x 0 < i
          · exact Or.inr ⟨hmut, hxlt, hbi⟩
          · have hbe : mi.getD x 0 = i := by omega
            rw [hbe, hjD] at hmut
            exact Or.inl (by omega)
      · rw [if_neg hji] at hok
        obtain ⟨u, hu, hok⟩ := bind_ok hok
        obtain ⟨cj, hcj, hok⟩ := bind_ok hok
        replace hcj := toRes_ok hcj
        have hcjD : current.getD j defaultNode = cj := getD_of_getElem? hcj
        have hcjp : properBox cj.bbox = true := hcur cj (List.getElem?_mem hcj)
        obtain ⟨arr2, ha2, hok⟩ := bind_ok hok
        obtain ⟨arr3, ha3, hok⟩ := bind_ok hok
        refine ih (i+1) arr3 (cursor - 2)
          (next ++ [Node.mk (ci.bbox.extend cj.bbox) 0 (u32 (cursor - 2))]) out hok ?_ ?_
        · intro nd hnd
          rcases List.mem_append.mp hnd with hnd | hnd
          · exact hnext nd hnd
          · have : nd = Node.mk (ci.bbox.extend cj.bbox) 0 (u32 (cursor - 2)) := by
              simpa using hnd
            subst this
            exact properBox_extend cj.bbox hcip
        · intro x hx hc
          rcases hc with hlt | ⟨hmut, hxlt, hbnd⟩
          · by_cases hxi : x < i
            · obtain ⟨nd, hnd, hcont⟩ := hH x hx (Or.inl hxi)
              exact ⟨nd, List.mem_append_left _ hnd, hcont⟩
            · have hxe : x = i := by omega
              subst hxe
              refine ⟨Node.mk (ci.bbox.extend cj.bbox) 0 (u32 (cursor - 2)),
                List.mem_append_right _ (by simp), ?_⟩
              rw [hciD]
              exact extend_contains_left (properBox_noNan hcip)
          · by_cases hbi : mi.getD x 0 < i
            · obtain ⟨nd, hnd, hcont⟩ := hH x hx (Or.inr ⟨hmut, hxlt, hbi⟩)
              exact ⟨nd, List.mem_append_left _ hnd, hcont⟩
            · have hbe : mi.getD x 0 = i := by omega
              rw [hbe, hjD] at hmut
              subst hmut
              refine ⟨Node.mk (ci.bbox.extend cj.bbox) 0 (u32 (cursor - 2)),
                List.mem_append_right _ (by simp), ?_⟩
              rw [hcjD]
              exact extend_contains_right (properBox_noNan hcip) (properBox_noNan hcjp)
    · rw [if_neg hieq] at hok
      refine ih (i+1) arr cursor (next ++ [ci]) out hok ?_ ?_
      · intro nd hnd
        rcases List.mem_append.mp hnd with hnd | hnd
        · exact hnext nd hnd
        · have : nd = ci := by simpa using hnd
          subst this
          exact hcip
      · intro x hx hc
        rcases hc with hlt | ⟨hmut, hxlt, hbnd⟩
        · by_cases hxi : x < i
          · obtain ⟨nd, hnd, hcont⟩ := hH x hx (Or.inl hxi)
            exact ⟨nd, List.mem_append_left _ hnd, hcont⟩
          · have hxe : x = i := by omega
            subst hxe
            refine ⟨ci, List.mem_append_right _ (by simp), ?_⟩
            rw [hciD]
            exact boxContains_self hcip
        · by_cases hbi : mi.getD x 0 < i
          · obtain ⟨nd, hnd, hcont⟩ := hH x hx (Or.inr ⟨hmut, hxlt, hbi⟩)
            exact ⟨nd, List.mem_append_left _ hnd, hcont⟩
          · have hbe : mi.getD x 0 = i := by omega
            rw [hbe, hjD] at hmut
            rw [hmut, hbe] at hmjD
            exact absurd hmjD hieq

theorem isMergeStep_eq (mi : List Nat) (x : Nat) :
    isMergeStep mi x = (isPairStep mi x || isSelfStep mi x) := by
  unfold isPairStep isSelfStep isMergeStep
  by_cases hs : mi.getD x 0 = x
  · simp only [hs]
    simp
  · simp only [decide_eq_false hs]
    simp

theorem pair_self_disjoint (mi : List Nat) (x : Nat) :
    ¬(isPairStep mi x = true ∧ isSelfStep mi x = true) := by
  rintro ⟨hp, hs⟩
  unfold isPairStep at hp
  rw [hs] at hp
  simp at hp

theorem mergeCount_split (mi : List Nat) (len : Nat) :
    mergeCount mi len 0 =
      ((List.range' 0 len).filter (isPairStep mi)).length +
      ((List.range' 0 len).filter (isSelfStep mi)).length := by
  unfold mergeCount
  rw [← filter_or_disjoint _ _ _ (fun x _ => pair_self_disjoint mi x)]
  congr 1
  apply List.filter_congr
  intro x _
  exact isMergeStep_eq mi x

theorem isPairStep_iff (mi : List Nat) (x : Nat) :
    isPairStep mi x = true ↔
      mi.getD (mi.getD x 0) 0 = x ∧ x < mi.getD x 0 := by
  unfold isPairStep isMergeStep isSelfStep
  simp only [Bool.and_eq_true, Bool.not_eq_true', decide_eq_true_eq,
    decide_eq_false_iff_not]
  omega

theorem isSkipStep_iff (mi : List Nat) (x : Nat) :
    isSkipStep mi x = true ↔
      mi.getD (mi.getD x 0) 0 = x ∧ mi.getD x 0 < x := by
  unfold isSkipStep
  simp only [Bool.and_eq_true, decide_eq_true_eq]

theorem pair_skip_count (mi : List Nat) (len : Nat)
    (hb : ∀ x, x < len → mi.getD x 0 < len) :
    ((List.range' 0 len).filter (isPairStep mi)).length =
      ((List.range' 0 len).filter (isSkipStep mi)).length := by
  have hrng : ∀ x : Nat, x ∈ List.range' 0 len ↔ x < len := by
    intro x
    rw [List.mem_range'_1]
    omega
  have hperm : (((List.range' 0 len).filter (isPairStep mi)).map
      (fun x => mi.getD x 0)).Perm ((List.range' 0 len).filter (isSkipStep mi)) := by
    apply (List.perm_ext_iff_of_nodup ?_ ?_).mpr
    · intro y
      constructor
      · intro hy
        obtain ⟨x, hx, hxy⟩ := List.mem_map.mp hy
        obtain ⟨hxr, hxp⟩ := List.mem_filter.mp hx
        obtain ⟨hmut, hlt⟩ := (isPairStep_iff mi x).mp hxp
        subst hxy
        apply List.mem_filter.mpr
        refine ⟨(hrng _).mpr (hb x ((hrng _).mp hxr)), ?_⟩
        apply (isSkipStep_iff mi _).mpr
        exact ⟨by rw [hmut], by rw [hmut]; exact hlt⟩
      · intro hy
        obtain ⟨hyr, hys⟩ := List.mem_filter.mp hy
        obtain ⟨hmut, hlt⟩ := (isSkipStep_iff mi y).mp hys
        apply List.mem_map.mpr
        refine ⟨mi.getD y 0, List.mem_filter.mpr ⟨?_, ?_⟩, hmut⟩
        · apply (hrng _).mpr
          exact hb y ((hrng _).mp hyr)
        · apply (isPairStep_iff mi _).mpr
          exact ⟨by rw [hmut], by rw [hmut]; exact hlt⟩
    · apply List.Nodup.map_on
      · intro x1 hx1 x2 hx2 he
        obtain ⟨hmut1, -⟩ := (isPairStep_iff mi x1).mp (List.mem_filter.mp hx1).2
        obtain ⟨hmut2, -⟩ := (isPairStep_iff mi x2).mp (List.mem_filter.mp hx2).2
        rw [← hmut1, he, hmut2]
      · exact (List.nodup_range' _ _).filter _
    · exact (List.nodup_range' _ _).filter _
  have hl := hperm.length_eq
  rw [List.length_map] at hl
  exact hl

theorem deadCellsM_succ (current : List Node) (mi : List Nat) (bound k i : Nat) :
    deadCellsM current mi bound (k+1) i =
      (if mi.getD i 0 < bound ∧ mi.getD (mi.getD i 0) 0 = i then
        (nodeCells (current.getD i defaultNode) : Multiset Nat) else 0) +
      deadCellsM current mi bound k (i+1) := by
  unfold deadCellsM
  rw [List.range'_succ, List.filter_cons]
  by_cases h : mi.getD i 0 < bound ∧ mi.getD (mi.getD i 0) 0 = i
  · rw [if_pos (by rw [decide_eq_true h.1, decide_eq_true h.2]; rfl), if_pos h,
      List.map_cons, List.sum_cons]
  · rw [if_neg (by simp only [Bool.and_eq_true, decide_eq_true_eq]; exact h),
      if_neg h, zero_add]

theorem deadCellsM_zero (current : List Node) (mi : List Nat) (bound i : Nat) :
    deadCellsM current mi bound 0 i = 0 := rfl

theorem deadCellsM_bot (current : List Node) (mi : List Nat) (k i : Nat) :
    deadCellsM current mi 0 k i = 0 := by
  unfold deadCellsM
  have : (List.range' i k).filter (fun x => decide (mi.getD x 0 < 0) &&
      decide (mi.getD (mi.getD x 0) 0 = x)) = [] := by
    rw [List.filter_eq_nil_iff]
    intro x _
    simp
  rw [this]
  rfl

theorem dead_shift (current : List Node) (mi : List Nat) (k i : Nat)
    (hnb : ∀ x, x ∈ List.range' (i+1) k → mi.getD x 0 = i →
      mi.getD (mi.getD x 0) 0 ≠ x) :
    deadCellsM current mi i k (i+1) = deadCellsM current mi (i+1) k (i+1) := by
  unfold deadCellsM
  congr 1
  congr 1
  apply List.filter_congr
  intro x hx
  show (decide (mi.getD x 0 < i) && decide (mi.getD (mi.getD x 0) 0 = x)) =
    (decide (mi.getD x 0 < i + 1) && decide (mi.getD (mi.getD x 0) 0 = x))
  by_cases hxi : mi.getD x 0 < i
  · rw [decide_eq_true hxi, decide_eq_true (by omega : mi.getD x 0 < i + 1)]
  · by_cases hxe : mi.getD x 0 = i
    · rw [decide_eq_false (hnb x hx hxe)]
      simp
    · rw [decide_eq_false (by omega : ¬(mi.getD x 0 < i)),
        decide_eq_false (by omega : ¬(mi.getD x 0 < i + 1))]

theorem dead_extract (current : List Node) (mi : List Nat) (k i j : Nat)
    (hjmem : j ∈ List.range' (i+1) k)
    (hmutj : mi.getD j 0 = i) (hback : mi.getD i 0 = j) :
    deadCellsM current mi (i+1) k (i+1) =
      (nodeCells (current.getD j defaultNode) : Multiset Nat) +
      deadCellsM current mi i k (i+1) := by
  have hext := filter_extract (l := List.range' (i+1) k)
    (List.nodup_range' _ _)
    (P := fun x => decide (mi.getD x 0 < i + 1) &&
      decide (mi.getD (mi.getD x 0) 0 = x))
    (Q := fun x => decide (mi.getD x 0 < i) &&
      decide (mi.getD (mi.getD x 0) 0 = x))
    hjmem
    (by show (decide (mi.getD j 0 < i + 1) && decide (mi.getD (mi.getD j 0) 0 = j)) = true
        rw [hmutj, hback]
        simp)
    (by show (decide (mi.getD j 0 < i) && decide (mi.getD (mi.getD j 0) 0 = j)) = false
        rw [hmutj]
        simp)
    (by intro x hx hxj
        show (decide (mi.getD x 0 < i + 1) && decide (mi.getD (mi.getD x 0) 0 = x)) =
          (decide (mi.getD x 0 < i) && decide (mi.getD (mi.getD x 0) 0 = x))
        by_cases hxi : mi.getD x 0 < i
        · rw [decide_eq_true hxi, decide_eq_true (by omega : mi.getD x 0 < i + 1)]
        · by_cases hxe : mi.getD x 0 = i
          · by_cases hxmut : mi.getD (mi.getD x 0) 0 = x
            · exfalso
              rw [hxe, hback] at hxmut
              exact hxj hxmut.symm
            · rw [decide_eq_false hxmut]
              simp
          · rw [decide_eq_false (by omega : ¬(mi.getD x 0 < i)),
              decide_eq_false (by omega : ¬(mi.getD x 0 < i + 1))])
  unfold deadCellsM
  have hmp := hext.map
    (fun x => (nodeCells (current.getD x defaultNode) : Multiset Nat))
  have hs := hmp.sum_eq
  rw [hs, List.map_cons, List.sum_cons]

theorem passCells_eq (current : List Node) (mi : List Nat)
    (hb : ∀ x, x < current.length → mi.getD x 0 < current.length)
    (hns : ∀ x, x < current.length → mi.getD x 0 ≠ x) :
    ∀ k i, i + k = current.length →
      passCellsM current mi k i + deadCellsM current mi i k i =
        leafCellsM (current.drop i) := by
  intro k
  induction k with
  | zero =>
    intro i hik
    rw [show i = current.length from by omega, List.drop_length]
    rw [deadCellsM_zero]
    rfl
  | succ k ih =>
    intro i hik
    have hi : i < current.length := by omega
    have hdrop : current.drop i = current.getD i defaultNode :: current.drop (i+1) := by
      rw [List.drop_eq_getElem_cons hi]
      rw [List.getD_eq_getElem _ _ hi]
    rw [hdrop, leafCellsM_cons]
    have ihh := ih (i+1) (by omega)
    rw [passCellsM_succ, deadCellsM_succ]
    have hj := hb i hi
    have hjne := hns i hi
    by_cases hmut : mi.getD (mi.getD i 0) 0 = i
    · by_cases hji : mi.getD i 0 < i
      · -- skip step at i
        rw [if_pos hmut, if_pos hji, if_pos ⟨hji, hmut⟩]
        have hshift := dead_shift current mi k i
          (by intro x hx hxe hxmut
              rw [hxe] at hxmut
              rw [List.mem_range'_1] at hx
              omega)
        rw [hshift, ← ihh]
        abel
      · -- merge step at i
        rw [if_pos hmut, if_neg hji,
          if_neg (by omega : ¬(mi.getD i 0 < i ∧ mi.getD (mi.getD i 0) 0 = i))]
        have hjmem : mi.getD i 0 ∈ List.range' (i+1) k := by
          rw [List.mem_range'_1]
          omega
        have hsum := dead_extract current mi k i (mi.getD i 0) hjmem hmut rfl
        rw [hsum] at ihh
        rw [← ihh]
        abel
    · -- carry step at i
      rw [if_neg hmut, if_neg (by intro hc; exact hmut hc.2)]
      have hshift := dead_shift current mi k i
        (by intro x hx hxe hxmut
            rw [hxe] at hxmut
            rw [hxmut] at hmut
            exact hmut hxe)
      rw [hshift, ← ihh]
      abel

theorem passCells_all (current : List Node) (mi : List Nat)
    (hb : ∀ x, x < current.length → mi.getD x 0 < current.length)
    (hns : ∀ x, x < current.length → mi.getD x 0 ≠ x) :
    passCellsM current mi current.length 0 = leafCellsM current := by
  have h := passCells_eq current mi hb hns current.length 0 (by omega)
  rw [deadCellsM_bot, add_zero, List.drop_zero] at h
  exact h

theorem miD_eq_fcn (current : List Node) (x : Nat) (hx : x < current.length) :
    ((List.range current.length).map (find_closest_node current)).getD x 0 =
      find_closest_node current x := by
  have hxlen : x < ((List.range current.length).map (find_closest_node current)).length := by
    simp only [List.length_map, List.length_range]
    exact hx
  rw [List.getD_eq_getElem _ _ hxlen, List.getElem_map, List.getElem_range]

theorem plocLoop_dirty :
    ∀ fuel current arr cursor out,
      plocLoop fuel current arr cursor = .ok out →
      cursor + 3 ≤ 2 * current.length → False := by
  intro fuel
  induction fuel with
  | zero =>
    intro current arr cursor out hok hd
    unfold plocLoop at hok
    rw [if_neg (by omega : ¬(current.length ≤ 1))] at hok
    cases hok
  | succ fuel ih =>
    intro current arr cursor out hok hd
    unfold plocLoop at hok
    rw [if_neg (by omega : ¬(current.length ≤ 1))] at hok
    obtain ⟨trip, hmp, hok⟩ := bind_ok hok
    obtain ⟨arr2, cursor2, next⟩ := trip
    dsimp only at hok
    obtain ⟨hA, hB, hC⟩ := mergePass_count current
      ((List.range current.length).map (find_closest_node current))
      current.length 0 arr cursor [] (arr2, cursor2, next) hmp
    have hbmi : ∀ x, x < current.length →
        ((List.range current.length).map (find_closest_node current)).getD x 0 <
          current.length := by
      intro x hx
      rw [miD_eq_fcn current x hx]
      exact find_closest_node_lt current x (by omega)
    have hsplit := mergeCount_split
      ((List.range current.length).map (find_closest_node current)) current.length
    have hps := pair_skip_count
      ((List.range current.length).map (find_closest_node current)) current.length hbmi
    have hsc : skipCount ((List.range current.length).map (find_closest_node current))
        current.length 0 ≤
        mergeCount ((List.range current.length).map (find_closest_node current))
          current.length 0 := by
      unfold skipCount
      omega
    apply ih next arr2 cursor2 out hok
    dsimp only at hA hB hC
    omega

theorem plocLoop_clean (K : Multiset Nat) (targets : List BBox) :
    ∀ fuel current arr cursor out,
      plocLoop fuel current arr cursor = .ok out →
      1 ≤ current.length →
      cursor + 1 = 2 * current.length →
      cursor ≤ arr.length →
      leafCellsM (arr.drop cursor) + leafCellsM current = K →
      (∀ nd ∈ current, properBox nd.bbox = true) →
      (∀ t ∈ targets, ∃ nd ∈ current, boxContains nd.bbox t = true) →
      out.1.length = 1 ∧ out.2.2 = 1 ∧ out.2.1.length = arr.length ∧
      leafCellsM (out.2.1.drop 1) + leafCellsM out.1 = K ∧
      (∀ t ∈ targets, ∃ nd ∈ out.1, boxContains nd.bbox t = true) := by
  intro fuel
  induction fuel with
  | zero =>
    intro current arr cursor out hok h1 hc hca hK hprop hcov
    unfold plocLoop at hok
    by_cases hlen : current.length ≤ 1
    · rw [if_pos hlen] at hok
      cases hok
      have hcur1 : cursor = 1 := by omega
      subst hcur1
      refine ⟨?_, rfl, rfl, hK, hcov⟩
      show current.length = 1
      omega
    · rw [if_neg hlen] at hok
      cases hok
  | succ fuel ih =>
    intro current arr cursor out hok h1 hc hca hK hprop hcov
    unfold plocLoop at hok
    by_cases hlen : current.length ≤ 1
    · rw [if_pos hlen] at hok
      cases hok
      have hcur1 : cursor = 1 := by omega
      subst hcur1
      refine ⟨?_, rfl, rfl, hK, hcov⟩
      show current.length = 1
      omega
    · rw [if_neg hlen] at hok
      obtain ⟨trip, hmp, hok⟩ := bind_ok hok
      obtain ⟨arr2, cursor2, next⟩ := trip
      dsimp only at hok
      obtain ⟨hA, hB, hC⟩ := mergePass_count current
        ((List.range current.length).map (find_closest_node current))
        current.length 0 arr cursor [] (arr2, cursor2, next) hmp
      dsimp only at hA hB hC
      rw [List.length_nil] at hC
      have hbmi : ∀ x, x < current.length →
          ((List.range current.length).map (find_closest_node current)).getD x 0 <
            current.length := by
        intro x hx
        rw [miD_eq_fcn current x hx]
        exact find_closest_node_lt current x (by omega)
      have hsplit := mergeCount_split
        ((List.range current.length).map (find_closest_node current)) current.length
      have hps := pair_skip_count
        ((List.range current.length).map (find_closest_node current)) current.length hbmi
      by_cases hself : ∃ x, x < current.length ∧
          ((List.range current.length).map (find_closest_node current)).getD x 0 = x
      · -- a self-merge happened: the state is dirty and the loop can never
        -- return ok, contradiction
        exfalso
        obtain ⟨x, hx, hxe⟩ := hself
        have hmem : x ∈ (List.range' 0 current.length).filter
            (isSelfStep ((List.range current.length).map (find_closest_node current))) := by
          apply List.mem_filter.mpr
          refine ⟨by rw [List.mem_range'_1]; omega, ?_⟩
          unfold isSelfStep
          rw [hxe]
          simp
        have hpos : 1 ≤ ((List.range' 0 current.length).filter
            (isSelfStep ((List.range current.length).map
              (find_closest_node current)))).length := by
          have := List.length_pos.mpr (List.ne_nil_of_mem hmem)
          omega
        have hsc : skipCount ((List.range current.length).map (find_closest_node current))
            current.length 0 =
            ((List.range' 0 current.length).filter
              (isPairStep ((List.range current.length).map
                (find_closest_node current)))).length := by
          unfold skipCount
          omega
        exact plocLoop_dirty fuel next arr2 cursor2 out hok (by omega)
      · -- a clean pass: every merge is a proper pair merge
        push_neg at hself
        have hns : ∀ x, x < current.length →
            ((List.range current.length).map (find_closest_node current)).getD x 0 ≠ x :=
          fun x hx => hself x hx
        have hself0 : ((List.range' 0 current.length).filter
            (isSelfStep ((List.range current.length).map
              (find_closest_node current)))).length = 0 := by
          rw [List.length_eq_zero]
          rw [List.filter_eq_nil_iff]
          intro x hxmem
          rw [List.mem_range'_1] at hxmem
          unfold isSelfStep
          simp only [decide_eq_false (hns x (by omega))]
          simp
        have hcells := mergePass_cells current
          ((List.range current.length).map (find_closest_node current))
          current.length 0 arr cursor [] (arr2, cursor2, next) hmp
        dsimp only at hcells
        rw [passCells_all current _ hbmi hns, leafCellsM_nil, add_zero] at hcells
        obtain ⟨hprop2, hcov2⟩ := mergePass_boxes current
          ((List.range current.length).map (find_closest_node current)) hprop
          current.length 0 arr cursor [] (arr2, cursor2, next) hmp
          (by intro nd hnd; cases hnd)
          (by intro x hx hcase
              rcases hcase with hlt | ⟨-, -, hbnd⟩
              · omega
              · omega)
        dsimp only at hprop2 hcov2
        have hskipeq : skipCount ((List.range current.length).map
            (find_closest_node current)) current.length 0 =
            ((List.range' 0 current.length).filter
              (isSkipStep ((List.range current.length).map
                (find_closest_node current)))).length := rfl
        have hnext1 : 1 ≤ next.length := by omega
        have hnextc : cursor2 + 1 = 2 * next.length := by omega
        have hres := ih next arr2 cursor2 out hok hnext1 hnextc (by omega)
          (by rw [hcells, hK]) hprop2
          (by intro t ht
              obtain ⟨nd, hndmem, hcont⟩ := hcov t ht
              obtain ⟨x, hxlt, hxe⟩ := List.mem_iff_getElem.mp hndmem
              obtain ⟨nd2, hnd2, hcont2⟩ := hcov2 x hxlt (Or.inl (by omega))
              refine ⟨nd2, hnd2, boxContains_trans hcont2 ?_⟩
              rw [List.getD_eq_getElem _ _ hxlt, hxe]
              exact hcont)
        obtain ⟨r1, r2, r3, r4, r5⟩ := hres
        exact ⟨r1, r2, by omega, r4, r5⟩

theorem seedLeaves_spec (bb : List BBox) (pis : List Nat)
    (hbb : ∀ b ∈ bb, properBox b = true) :
    ∀ k i acc out, seedLeaves bb pis k i acc = .ok out →
      i + k ≤ 2 ^ 32 →
      (∀ nd ∈ acc, properBox nd.bbox = true) →
      out.length = acc.length + k ∧
      leafCellsM out = leafCellsM acc + (List.range' i k : Multiset Nat) ∧
      (∀ nd ∈ out, properBox nd.bbox = true) ∧
      (∀ nd ∈ acc, nd ∈ out) ∧
      (∀ x, i ≤ x → x < i + k → ∀ p bx, pis[x]? = some p → bb[p]? = some bx →
        ∃ nd ∈ out, nd.bbox = bx) := by
  intro k
  induction k with
  | zero =>
    intro i acc out hok _ hacc
    cases hok
    refine ⟨rfl, ?_, hacc, fun nd h => h, ?_⟩
    · rw [List.range'_zero]
      rw [show ((([] : List Nat) : Multiset Nat)) = 0 from rfl, add_zero]
    · intro x hxi hxk
      omega
  | succ k ih =>
    intro i acc out hok hik hacc
    unfold seedLeaves at hok
    obtain ⟨p, hp, hok⟩ := bind_ok hok
    replace hp := toRes_ok hp
    obtain ⟨bx, hbx, hok⟩ := bind_ok hok
    replace hbx := toRes_ok hbx
    rw [u32_eq (show i < 2 ^ 32 by omega)] at hok
    have hprop : properBox bx = true := hbb bx (List.getElem?_mem hbx)
    obtain ⟨L, C, P, M, V⟩ := ih (i+1) (acc ++ [Node.mk bx 1 i]) out hok
      (by omega)
      (by intro nd hnd
          rcases List.mem_append.mp hnd with h | h
          · exact hacc nd h
          · have : nd = Node.mk bx 1 i := by simpa using h
            subst this
            exact hprop)
    have hnodemem : Node.mk bx 1 i ∈ out :=
      M (Node.mk bx 1 i) (List.mem_append_right _ (by simp))
    refine ⟨?_, ?_, P, ?_, ?_⟩
    · rw [L, List.length_append]
      simp
      omega
    · rw [C, leafCellsM_append, leafCellsM_cons, leafCellsM_nil]
      have hr : ((List.range' i (k+1) : List Nat) : Multiset Nat) =
          (nodeCells (Node.mk bx 1 i) : Multiset Nat) +
          ((List.range' (i+1) k : List Nat) : Multiset Nat) := by
        rw [List.range'_succ]
        rw [show (i :: List.range' (i+1) k) = [i] ++ List.range' (i+1) k from rfl]
        rw [← Multiset.coe_add]
        rfl
      rw [hr]
      abel
    · intro nd hnd
      exact M nd (List.mem_append_left _ hnd)
    · intro x hxi hxk p2 bx2 hp2 hbx2
      by_cases hxe : x = i
      · subst hxe
        rw [hp] at hp2
        have hpp : p = p2 := Option.some.inj hp2
        subst hpp
        rw [hbx] at hbx2
        have hbb2 : bx = bx2 := Option.some.inj hbx2
        subst hbb2
        exact ⟨Node.mk bx 1 x, hnodemem, rfl⟩
      · exact V x (by omega) (by omega) p2 bx2 hp2 hbx2

theorem plocBuild_invariants (bb : List BBox) (cc : List Vec3) (n : Nat) (b : Bvh)
    (hn : 0 < n) (hn32 : n < 2 ^ 32) (hbb : ∀ bx ∈ bb, properBox bx = true)
    (h : plocBuild bb cc n = .ok b) :
    b.prim_indices.Perm (List.range n) ∧
    leafCellsM b.nodes = (List.range n : Multiset Nat) ∧
    b.nodes.length ≤ 2 * n - 1 ∧
    (∀ i bx, i < n → bb[i]? = some bx →
      boxContains (b.nodes.getD 0 defaultNode).bbox bx = true) := by
  unfold plocBuild at h
  obtain ⟨mortons, hmor, h⟩ := bind_ok h
  obtain ⟨current, hseed, h⟩ := bind_ok h
  obtain ⟨arr, hres, h⟩ := bind_ok h
  obtain ⟨hrep, hmax⟩ := vresize_ok hres
  obtain ⟨res, hloop, h⟩ := bind_ok h
  obtain ⟨u, hass, h⟩ := bind_ok h
  have hass1 : res.2.2 = 1 := of_decide_eq_true (assertR_ok hass)
  obtain ⟨root, hroot, h⟩ := bind_ok h
  replace hroot := toRes_ok hroot
  obtain ⟨arr3, hset, h⟩ := bind_ok h
  obtain ⟨h0lt, harr3⟩ := lset?_ok (toRes_ok hset)
  replace h := pure_ok h
  subst h
  obtain ⟨SL, SC, SP, SM, SV⟩ := seedLeaves_spec bb
    (List.insertionSort (cmpMorton mortons) (List.range n)) hbb n 0 [] current hseed
    (by omega)
    (by intro nd hnd; cases hnd)
  have hcurlen : current.length = n := by
    rw [SL]; simp
  have hLlen : arr.length = sizeSub (2 * n) 1 := by
    rw [hrep]; exact List.length_replicate _ _
  have hma : maxAlloc = 2 ^ 58 := rfl
  by_cases hn63 : n ≤ 2 ^ 63
  · -- no size_t wrap: the array has exactly 2n - 1 slots and the merge loop
    -- runs clean
    have hL : sizeSub (2 * n) 1 = 2 * n - 1 := by
      unfold sizeSub
      omega
    have hcl := plocLoop_clean (List.range n : Multiset Nat) (bb.take n) n current
      arr arr.length res hloop
      (by omega)
      (by rw [hcurlen, hLlen, hL]; omega)
      (le_refl _)
      (by rw [List.drop_length, leafCellsM_nil, zero_add, SC, leafCellsM_nil,
            zero_add, ← List.range_eq_range'])
      SP
      (by intro t ht
          obtain ⟨x, hx?⟩ := List.mem_iff_getElem?.mp ht
          have hxlt : x < (bb.take n).length := getElem?_inv hx?
          have hxn : x < n := by
            rw [List.length_take] at hxlt
            omega
          rw [List.getElem?_take, if_pos hxn] at hx?
          have htprop := hbb t (List.getElem?_mem hx?)
          have hxpis : x ∈ List.insertionSort (cmpMorton mortons) (List.range n) :=
            (List.perm_insertionSort _ _).mem_iff.mpr (by rw [List.mem_range]; exact hxn)
          obtain ⟨y, hy?⟩ := List.mem_iff_getElem?.mp hxpis
          have hylt : y < (List.insertionSort (cmpMorton mortons) (List.range n)).length :=
            getElem?_inv hy?
          have hyn : y < n := by
            rw [(List.perm_insertionSort _ _).length_eq, List.length_range] at hylt
            exact hylt
          obtain ⟨nd, hndmem, hnd⟩ := SV y (by omega) (by omega) x t hy? hx?
          exact ⟨nd, hndmem, by rw [hnd]; exact boxContains_self htprop⟩)
    obtain ⟨R1, R2, R3, R4, R5⟩ := hcl
    obtain ⟨rootOnly, hres1⟩ := List.length_eq_one.mp R1
    have hrooteq : rootOnly = root := by
      rw [hres1] at hroot
      exact Option.some.inj hroot
    subst hrooteq
    cases hres21 : res.2.1 with
    | nil =>
      exfalso
      rw [hres21] at h0lt
      simp at h0lt
    | cons r0 rest =>
      rw [hres21] at harr3 R3 R4
      have harr3e : arr3 = rootOnly :: rest := by
        rw [harr3]
        rfl
      have hlenrest : (r0 :: rest).length = arr.length := R3
      refine ⟨List.perm_insertionSort _ _, ?_, ?_, ?_⟩
      · show leafCellsM arr3 = (List.range n : Multiset Nat)
        rw [harr3e, leafCellsM_cons]
        rw [hres1] at R4
        rw [leafCellsM_cons, leafCellsM_nil] at R4
        rw [show (r0 :: rest).drop 1 = rest from rfl] at R4
        rw [← R4]
        abel
      · show arr3.length ≤ 2 * n - 1
        rw [harr3e]
        have : arr3.length = (r0 :: rest).length := by
          rw [harr3]
          exact List.length_set _ _ _
        rw [harr3e] at this
        rw [this, hlenrest, hLlen, hL]
      · intro i bx hi hbx
        show boxContains (arr3.getD 0 defaultNode).bbox bx = true
        rw [harr3e]
        rw [show (rootOnly :: rest).getD 0 defaultNode = rootOnly from rfl]
        have htmem : bx ∈ bb.take n := by
          have hq : (bb.take n)[i]? = some bx := by
            rw [List.getElem?_take, if_pos hi]
            exact hbx
          exact List.getElem?_mem hq
        obtain ⟨nd, hndmem, hcont⟩ := R5 bx htmem
        rw [hres1] at hndmem
        have : nd = rootOnly := by simpa using hndmem
        subst this
        exact hcont
  · -- size_t wrap: the cursor starts far below 2*len and the loop can never
    -- return ok
    exfalso
    apply plocLoop_dirty n current arr arr.length res hloop
    rw [hcurlen]
    have : sizeSub (2 * n) 1 ≤ maxAlloc := by rw [← hLlen]; exact hLlen ▸ hmax
    omega

/-- C2: for either builder (binned SAH `sahBuild` or PLOC `plocBuild`) and any
input of `n > 0` primitives with proper (non-NaN, min ≤ max) bounding boxes,
a successfully returned `Bvh` satisfies: `prim_indices` is a permutation of
`0..n`; the multiset of primitive slots covered by the leaf ranges
`[first_index, first_index + prim_count)` over all leaves equals `0..n` with
each index exactly once; the node array has at most `2n - 1` entries; and the
root node's bounding box contains every input box.  The hypothesis
`n < 2^32` is the domain on which `Node`'s `uint32_t` `prim_count` and
`first_index` fields hold a primitive count or slot without wrapping: for
`n ≥ 2^32` the narrowing (`u32` at each assignment site) truncates the
stored ranges, and the leaf-coverage invariant is not claimed there. -/
theorem C2_build_invariants (bb : List BBox) (cc : List Vec3) (n : Nat) (b : Bvh)
    (hn : 0 < n) (hn32 : n < 2 ^ 32) (hbb : ∀ bx ∈ bb, properBox bx = true)
    (h : sahBuild bb cc n = .ok b ∨ plocBuild bb cc n = .ok b) :
    b.prim_indices.Perm (List.range n) ∧
    leafCellsM b.nodes = (List.range n : Multiset Nat) ∧
    b.nodes.length ≤ 2 * n - 1 ∧
    (∀ i bx, i < n → bb[i]? = some bx →
      boxContains (b.nodes.getD 0 defaultNode).bbox bx = true) := by
  rcases h with h | h
  · exact sahBuild_invariants bb cc n b hn hn32 hbb h
  · exact plocBuild_invariants bb cc n b hn hn32 hbb h

/-- The PLOC build of the single unit box, used as a concrete witness. -/
def plocDemoBvh : Bvh :=
  match plocBuild [boxUnit] [cOne] 1 with
  | .ok b => b
  | _ => ⟨[], []⟩

theorem C2_witness :
    0 < 1 ∧ (1 : Nat) < 2 ^ 32 ∧ (∀ bx ∈ [boxUnit], properBox bx = true) ∧
    plocBuild [boxUnit] [cOne] 1 = .ok plocDemoBvh ∧
    (plocDemoBvh.prim_indices.Perm (List.range 1) ∧
      leafCellsM plocDemoBvh.nodes = (List.range 1 : Multiset Nat) ∧
      plocDemoBvh.nodes.length ≤ 2 * 1 - 1 ∧
      (∀ i bx, i < 1 → [boxUnit][i]? = some bx →
        boxContains (plocDemoBvh.nodes.getD 0 defaultNode).bbox bx = true)) :=
  ⟨by decide, by decide, by decide, by rfl,
    C2_build_invariants [boxUnit] [cOne] 1 plocDemoBvh (by decide) (by decide) (by decide)
      (Or.inr (by rfl))⟩
